import Mathlib

/-!
Verification of the orbvis band-structure utilities and PROCAR extractors.

The definitions below are shallow embeddings of the Python code in
`orbvis/band/utils.py` and `orbvis/band/parser.py`.  Machine floats are
modelled as exact rationals (every Python float is a rational number); the
irrational quantities produced by `sqrt` / `arccos` are modelled in `ℝ`.
NaN cells (produced by `insert_discontinuities`) are modelled by `Option ℚ`
with `none` playing the role of `np.nan`.
-/

namespace OrbVis

/-- A cell of a plotted data array: `none` models `np.nan`, `some q` a finite
float value. -/
abbrev FV := Option ℚ

/-- Python slice `l[i:j]` (indices clipped to the list, empty when `j ≤ i`). -/
def pySlice {α : Type} (l : List α) (i j : ℕ) : List α :=
  (l.take j).drop i

/-- `np.split(row, ix)` along a 1-D row: the pieces `row[0:i₀], row[i₀:i₁], …,
row[i_last:len]`. -/
def splitRow {α : Type} (r : List α) (ix : List ℕ) : List (List α) :=
  List.zipWith (pySlice r) (0 :: ix) (ix ++ [r.length])

/-- Append every part followed by a one-cell NaN column, drop the trailing
dummy NaN column, and concatenate (the `with_nans` loop of
`insert_discontinuities`). -/
def glue (parts : List (List FV)) : List FV :=
  ((parts.foldr (fun p acc => p :: [(none : FV)] :: acc) []).dropLast).flatten

/-- The loop body of `insert_discontinuities` applied to one row. -/
def insertRow (r : List FV) (ix : List ℕ) : List FV :=
  glue (splitRow r ix)

/-- A numpy array of rank 2 `(bands, kpoints)` or rank 3 `(2, bands, kpoints)`,
row-major. -/
inductive Arr where
  | d2 : List (List FV) → Arr
  | d3 : List (List (List FV)) → Arr
deriving DecidableEq

/-- `insert_discontinuities(arr, discontinuity_indices)` from
`orbvis/band/utils.py`: split along the k-point axis at the given positions and
re-concatenate with a NaN column between consecutive parts.  Splitting a 2-D
array along `axis=1` and concatenating column blocks acts independently on each
row, which is how the embedding represents it; the 3-D case applies the same
treatment to each spin slice. -/
def insert_discontinuities (a : Arr) (ix : List ℕ) : Arr :=
  match a with
  | .d2 m => .d2 (m.map (fun r => insertRow r ix))
  | .d3 ms => .d3 (ms.map (fun sl => sl.map (fun r => insertRow r ix)))

/-- Reference shape of one row after gap insertion: take the first `i` cells,
emit a NaN, and recurse on the remainder with shifted cut positions. -/
def gapsSpec : List FV → List ℕ → List FV
  | r, [] => r
  | r, i :: ix => r.take i ++ (none : FV) :: gapsSpec (r.drop i) (ix.map (· - i))
termination_by _ ix => ix.length
decreasing_by simp

/-- Delete from `r` the entries whose position (counting from `k`) lies in
`S`. -/
def removeAt {α : Type} : List α → List ℕ → ℕ → List α
  | [], _, _ => []
  | x :: xs, S, k => if k ∈ S then removeAt xs S (k + 1) else x :: removeAt xs S (k + 1)

/-- Output positions of the inserted NaN columns: the `j`-th inserted column
lands at position `ix[j] + j`. -/
def nanPositions (ix : List ℕ) : List ℕ :=
  (List.range ix.length).map (fun j => ix.getD j 0 + j)

end OrbVis

namespace OrbVis

theorem splitRow_nil {α : Type} (r : List α) : splitRow r [] = [r] := by
  simp [splitRow, pySlice]

theorem insertRow_nil (r : List FV) : insertRow r [] = r := by
  simp [insertRow, glue, splitRow_nil]

theorem zipWith_congr_left {α β γ : Type} {f g : α → β → γ} :
    ∀ (l₁ : List α), (∀ a ∈ l₁, ∀ b, f a b = g a b) → ∀ l₂ : List β,
      List.zipWith f l₁ l₂ = List.zipWith g l₁ l₂ := by
  intro l₁ h
  induction l₁ with
  | nil => intro l₂; simp
  | cons a t ih =>
    intro l₂
    cases l₂ with
    | nil => simp
    | cons b t₂ =>
      simp only [List.zipWith_cons_cons]
      refine congrArg₂ _ (h a (by simp) b) (ih ?_ t₂)
      intro x hx b'
      exact h x (by simp [hx]) b'

theorem pySlice_shift {α : Type} (r : List α) (i a b : ℕ) (ha : i ≤ a) :
    pySlice r a b = pySlice (r.drop i) (a - i) (b - i) := by
  unfold pySlice
  rw [List.take_drop]
  rcases le_or_lt i b with hb | hb
  · rw [Nat.add_sub_cancel' hb, List.drop_drop, Nat.add_sub_cancel' ha]
  · have h1 : i + (b - i) = i := by omega
    rw [h1, List.drop_drop]
    have h2 : (r.take b).length ≤ a := by
      simp only [List.length_take]
      omega
    have h3 : (r.take i).length ≤ i + (a - i) := by
      simp only [List.length_take]
      omega
    rw [List.drop_eq_nil_of_le h2, List.drop_eq_nil_of_le h3]

theorem splitRow_cons {α : Type} (r : List α) (i : ℕ) (ix : List ℕ)
    (hall : ∀ x ∈ ix, i ≤ x) :
    splitRow r (i :: ix) = r.take i :: splitRow (r.drop i) (ix.map (· - i)) := by
  unfold splitRow
  simp only [List.cons_append, List.zipWith_cons_cons]
  refine congrArg₂ _ (by simp [pySlice]) ?_
  have hlen : (r.drop i).length = r.length - i := by simp
  have h0 : (0 : ℕ) :: ix.map (· - i) = (i :: ix).map (· - i) := by
    simp
  have h1 : ix.map (· - i) ++ [(r.drop i).length] = (ix ++ [r.length]).map (· - i) := by
    simp [hlen]
  rw [h0, h1, List.zipWith_map]
  exact (zipWith_congr_left (i :: ix)
    (by
      intro a hamem b
      have hia : i ≤ a := by
        rcases List.mem_cons.mp hamem with h | h
        · omega
        · exact hall a h
      exact (pySlice_shift r i a b hia).symm) (ix ++ [r.length])).symm

theorem splitRow_ne_nil {α : Type} (r : List α) (ix : List ℕ) :
    splitRow r ix ≠ [] := by
  unfold splitRow
  cases ix <;> simp

theorem glue_singleton (p : List FV) : glue [p] = p := by
  simp [glue]

theorem glue_cons (p : List FV) (parts : List (List FV)) (h : parts ≠ []) :
    glue (p :: parts) = p ++ (none : FV) :: glue parts := by
  obtain ⟨q, parts', rfl⟩ : ∃ q parts', parts = q :: parts' := by
    cases parts with
    | nil => exact absurd rfl h
    | cons q parts' => exact ⟨q, parts', rfl⟩
  simp [glue, List.dropLast_cons₂]

theorem getD_mem_of_lt {α : Type} (l : List α) (n : ℕ) (d : α) (h : n < l.length) :
    l.getD n d ∈ l := by
  rw [List.getD_eq_getElem?_getD, List.getElem?_eq_getElem h]
  exact List.getElem_mem h

theorem pairwise_lt_map_sub (i : ℕ) (ix : List ℕ) (hp : List.Pairwise (· < ·) ix)
    (hall : ∀ x ∈ ix, i ≤ x) :
    List.Pairwise (· < ·) (ix.map (· - i)) := by
  rw [List.pairwise_map]
  refine hp.imp_of_mem ?_
  intro a b ha _ hab
  have := hall a ha
  omega

theorem insertRow_eq_gapsSpec_aux :
    ∀ (n : ℕ) (ix : List ℕ), ix.length ≤ n → ∀ (r : List FV),
      List.Pairwise (· < ·) ix → insertRow r ix = gapsSpec r ix := by
  intro n
  induction n with
  | zero =>
    intro ix hn r _
    have : ix = [] := List.length_eq_zero.mp (Nat.le_zero.mp hn)
    subst this
    simp [insertRow_nil, gapsSpec]
  | succ n ih =>
    intro ix hn r hp
    cases ix with
    | nil => simp [insertRow_nil, gapsSpec]
    | cons i ix =>
      have hall : ∀ x ∈ ix, i ≤ x := by
        intro x hx
        exact le_of_lt (List.rel_of_pairwise_cons hp hx)
      unfold insertRow
      rw [splitRow_cons r i ix hall,
        glue_cons _ _ (splitRow_ne_nil _ _)]
      show _ = gapsSpec r (i :: ix)
      simp only [gapsSpec]
      rw [← ih (ix.map (· - i)) (by simp at hn ⊢; omega) (r.drop i)
        (pairwise_lt_map_sub i ix (List.Pairwise.of_cons hp) hall)]
      rfl

theorem insertRow_eq_gapsSpec (ix : List ℕ) (r : List FV)
    (hp : List.Pairwise (· < ·) ix) : insertRow r ix = gapsSpec r ix :=
  insertRow_eq_gapsSpec_aux ix.length ix le_rfl r hp

theorem gapsSpec_length_aux :
    ∀ (n : ℕ) (ix : List ℕ), ix.length ≤ n → ∀ (r : List FV),
      (∀ x ∈ ix, x ≤ r.length) →
      (gapsSpec r ix).length = r.length + ix.length := by
  intro n
  induction n with
  | zero =>
    intro ix hn r _
    have : ix = [] := List.length_eq_zero.mp (Nat.le_zero.mp hn)
    subst this
    simp [gapsSpec]
  | succ n ih =>
    intro ix hn r hb
    cases ix with
    | nil => simp [gapsSpec]
    | cons i ix =>
      have hi : i ≤ r.length := hb i (by simp)
      have hrec := ih (ix.map (· - i)) (by simp at hn ⊢; omega) (r.drop i)
        (by
          intro x hx
          simp only [List.mem_map] at hx
          obtain ⟨y, hy, rfl⟩ := hx
          have := hb y (by simp [hy])
          simp only [List.length_drop]
          omega)
      simp only [gapsSpec, List.length_append, List.length_cons, List.length_take,
        List.length_drop, List.length_map] at hrec ⊢
      omega

theorem gapsSpec_length (ix : List ℕ) (r : List FV) (hb : ∀ x ∈ ix, x ≤ r.length) :
    (gapsSpec r ix).length = r.length + ix.length :=
  gapsSpec_length_aux ix.length ix le_rfl r hb

theorem gapsSpec_nan_aux :
    ∀ (n : ℕ) (ix : List ℕ), ix.length ≤ n → ∀ (r : List FV),
      List.Pairwise (· < ·) ix → (∀ x ∈ ix, x ≤ r.length) →
      ∀ j, j < ix.length → (gapsSpec r ix)[ix.getD j 0 + j]? = some (none : FV) := by
  intro n
  induction n with
  | zero =>
    intro ix hn r _ _ j hj
    omega
  | succ n ih =>
    intro ix hn r hp hb j hj
    cases ix with
    | nil => simp at hj
    | cons i ix =>
      have hi : i ≤ r.length := hb i (by simp)
      have hlt : ∀ x ∈ ix, i < x := fun x hx => List.rel_of_pairwise_cons hp hx
      have htk : (r.take i).length = i := by simp [hi]
      cases j with
      | zero =>
        simp only [gapsSpec, List.getD_cons_zero, Nat.add_zero]
        rw [List.getElem?_append_right (by omega : (r.take i).length ≤ i)]
        simp [htk]
      | succ j =>
        have hj' : j < ix.length := by simpa using hj
        have hmem : ix.getD j 0 ∈ ix := getD_mem_of_lt _ _ _ hj'
        have higt : i < ix.getD j 0 := hlt _ hmem
        have hrec := ih (ix.map (· - i)) (by simp at hn ⊢; omega) (r.drop i)
          (pairwise_lt_map_sub i ix (List.Pairwise.of_cons hp) (fun x hx => le_of_lt (hlt x hx)))
          (by
            intro x hx
            simp only [List.mem_map] at hx
            obtain ⟨y, hy, rfl⟩ := hx
            have := hb y (by simp [hy])
            simp only [List.length_drop]
            omega)
          j (by simpa using hj')
        have hgd : (ix.map (· - i)).getD j 0 = ix.getD j 0 - i := by
          rw [List.getD_eq_getElem?_getD, List.getElem?_map,
            List.getD_eq_getElem?_getD, List.getElem?_eq_getElem hj']
          simp
        simp only [gapsSpec, List.getD_cons_succ]
        rw [List.getElem?_append_right (by omega : (r.take i).length ≤ ix.getD j 0 + (j + 1))]
        rw [htk]
        have hpos : ix.getD j 0 + (j + 1) - i = ((ix.map (· - i)).getD j 0 + j) + 1 := by
          rw [hgd]; omega
        rw [hpos]
        simpa using hrec

theorem gapsSpec_nan (ix : List ℕ) (r : List FV) (hp : List.Pairwise (· < ·) ix)
    (hb : ∀ x ∈ ix, x ≤ r.length) (j : ℕ) (hj : j < ix.length) :
    (gapsSpec r ix)[ix.getD j 0 + j]? = some (none : FV) :=
  gapsSpec_nan_aux ix.length ix le_rfl r hp hb j hj

theorem removeAt_nil_pos {α : Type} : ∀ (r : List α) (k : ℕ), removeAt r [] k = r := by
  intro r
  induction r with
  | nil => intro k; rfl
  | cons x xs ih =>
    intro k
    simp [removeAt, ih]

theorem removeAt_append {α : Type} :
    ∀ (l rest : List α) (S : List ℕ) (k : ℕ),
      (∀ m' ∈ S, ¬ (k ≤ m' ∧ m' < k + l.length)) →
      removeAt (l ++ rest) S k = l ++ removeAt rest S (k + l.length) := by
  intro l
  induction l with
  | nil => intro rest S k _; simp
  | cons x xs ih =>
    intro rest S k h
    have hk : k ∉ S := by
      intro hmem
      exact h k hmem (by simp)
    simp only [List.cons_append, removeAt, if_neg hk, List.append_eq]
    rw [ih rest S (k + 1) (by
      intro m' hm'
      have := h m' hm'
      simp only [List.length_cons] at this ⊢
      omega)]
    simp only [List.length_cons]
    have : k + 1 + xs.length = k + (xs.length + 1) := by omega
    rw [this]

theorem removeAt_shift {α : Type} :
    ∀ (r : List α) (S : List ℕ) (nsh k : ℕ),
      removeAt r (S.map (· + nsh)) (k + nsh) = removeAt r S k := by
  intro r
  induction r with
  | nil => intro S nsh k; rfl
  | cons x xs ih =>
    intro S nsh k
    have hmem : (k + nsh ∈ S.map (· + nsh)) ↔ k ∈ S := by
      simp only [List.mem_map]
      constructor
      · rintro ⟨a, ha, hup⟩
        have : a = k := by omega
        subst this; exact ha
      · intro hk; exact ⟨k, hk, rfl⟩
    simp only [removeAt]
    by_cases hk : k ∈ S
    · rw [if_pos (hmem.mpr hk), if_pos hk]
      have : k + nsh + 1 = (k + 1) + nsh := by omega
      rw [this, ih]
    · rw [if_neg (fun hc => hk (hmem.mp hc)), if_neg hk]
      have : k + nsh + 1 = (k + 1) + nsh := by omega
      rw [this, ih]

theorem removeAt_shift0 {α : Type} (r : List α) (S : List ℕ) (nsh : ℕ) :
    removeAt r (S.map (· + nsh)) nsh = removeAt r S 0 := by
  have := removeAt_shift r S nsh 0
  simpa using this

theorem removeAt_cons_lt {α : Type} :
    ∀ (r : List α) (a : ℕ) (S : List ℕ) (k : ℕ), a < k →
      removeAt r (a :: S) k = removeAt r S k := by
  intro r
  induction r with
  | nil => intro a S k _; rfl
  | cons x xs ih =>
    intro a S k hak
    have : (k ∈ a :: S) ↔ k ∈ S := by
      simp only [List.mem_cons]
      constructor
      · rintro (rfl | h)
        · omega
        · exact h
      · intro h; exact Or.inr h
    simp only [removeAt]
    by_cases hk : k ∈ S
    · rw [if_pos (this.mpr hk), if_pos hk, ih _ _ _ (by omega)]
    · rw [if_neg (fun hc => hk (this.mp hc)), if_neg hk, ih _ _ _ (by omega)]

theorem nanPositions_cons (i : ℕ) (ix : List ℕ) (h : ∀ x ∈ ix, i ≤ x) :
    nanPositions (i :: ix) =
      i :: (nanPositions (ix.map (· - i))).map (· + (i + 1)) := by
  unfold nanPositions
  simp only [List.length_cons, List.length_map]
  rw [List.range_succ_eq_map]
  simp only [List.map_cons, List.getD_cons_zero, Nat.add_zero, List.map_map]
  refine congrArg₂ _ rfl ?_
  refine List.map_congr_left ?_
  intro j hj
  have hj' : j < ix.length := List.mem_range.mp hj
  have hgd : (ix.map (· - i)).getD j 0 = ix.getD j 0 - i := by
    rw [List.getD_eq_getElem?_getD, List.getElem?_map,
      List.getD_eq_getElem?_getD, List.getElem?_eq_getElem hj']
    simp
  have hmem : ix.getD j 0 ∈ ix := getD_mem_of_lt _ _ _ hj'
  have := h _ hmem
  simp only [Function.comp_apply, List.getD_cons_succ, hgd]
  omega

theorem gapsSpec_remove_aux :
    ∀ (n : ℕ) (ix : List ℕ), ix.length ≤ n → ∀ (r : List FV),
      List.Pairwise (· < ·) ix → (∀ x ∈ ix, x ≤ r.length) →
      removeAt (gapsSpec r ix) (nanPositions ix) 0 = r := by
  intro n
  induction n with
  | zero =>
    intro ix hn r _ _
    have : ix = [] := List.length_eq_zero.mp (Nat.le_zero.mp hn)
    subst this
    simp [gapsSpec, nanPositions, removeAt_nil_pos]
  | succ n ih =>
    intro ix hn r hp hb
    cases ix with
    | nil => simp [gapsSpec, nanPositions, removeAt_nil_pos]
    | cons i ix =>
      have hi : i ≤ r.length := hb i (by simp)
      have hlt : ∀ x ∈ ix, i < x := fun x hx => List.rel_of_pairwise_cons hp hx
      have hle : ∀ x ∈ ix, i ≤ x := fun x hx => le_of_lt (hlt x hx)
      have htk : (r.take i).length = i := by simp [hi]
      rw [nanPositions_cons i ix hle]
      simp only [gapsSpec]
      set T := nanPositions (ix.map (· - i)) with hT
      have hother : ∀ m' ∈ (i :: T.map (· + (i + 1))), ¬ (0 ≤ m' ∧ m' < 0 + (r.take i).length) := by
        intro m' hm'
        rw [htk]
        rcases List.mem_cons.mp hm' with rfl | hmem
        · omega
        · simp only [List.mem_map] at hmem
          obtain ⟨a, _, rfl⟩ := hmem
          omega
      rw [removeAt_append _ _ _ _ hother, htk]
      have hhead : i ∈ (i :: T.map (· + (i + 1))) := by simp
      simp only [Nat.zero_add, removeAt, if_pos hhead]
      rw [removeAt_cons_lt _ _ _ _ (by omega)]
      rw [removeAt_shift0]
      rw [ih (ix.map (· - i)) (by simp at hn ⊢; omega) (r.drop i)
        (pairwise_lt_map_sub i ix (List.Pairwise.of_cons hp) hle)
        (by
          intro x hx
          simp only [List.mem_map] at hx
          obtain ⟨y, hy, rfl⟩ := hx
          have := hb y (by simp [hy])
          simp only [List.length_drop]
          omega)]
      exact List.take_append_drop i r

theorem gapsSpec_remove (ix : List ℕ) (r : List FV) (hp : List.Pairwise (· < ·) ix)
    (hb : ∀ x ∈ ix, x ≤ r.length) :
    removeAt (gapsSpec r ix) (nanPositions ix) 0 = r :=
  gapsSpec_remove_aux ix.length ix le_rfl r hp hb

/-- What `insert_discontinuities` is expected to do to one row of length `k`:
the output has `k + p` cells, the `j`-th inserted cell (at output position
`ix[j] + j`) is NaN, and deleting exactly the inserted positions recovers the
input row unchanged and in order. -/
def rowGapSpec (k : ℕ) (ix : List ℕ) (r r' : List FV) : Prop :=
  r'.length = k + ix.length ∧
  (∀ j, j < ix.length → r'[ix.getD j 0 + j]? = some (none : FV)) ∧
  removeAt r' (nanPositions ix) 0 = r

theorem rowGapSpec_insertRow (k : ℕ) (ix : List ℕ) (r : List FV)
    (hsort : List.Pairwise (· < ·) ix) (hbound : ∀ x ∈ ix, x ≤ k)
    (hlen : r.length = k) : rowGapSpec k ix r (insertRow r ix) := by
  have hb : ∀ x ∈ ix, x ≤ r.length := by
    intro x hx
    rw [hlen]
    exact hbound x hx
  rw [insertRow_eq_gapsSpec ix r hsort]
  refine ⟨?_, ?_, ?_⟩
  · rw [gapsSpec_length ix r hb, hlen]
  · intro j hj
    exact gapsSpec_nan ix r hsort hb j hj
  · exact gapsSpec_remove ix r hsort hb

end OrbVis

namespace OrbVis

/-- Claim C7: `insert_discontinuities` applied with an empty discontinuity list
returns the input array unchanged, both for 2-D `(bands, kpoints)` arrays and
for 3-D `(2, bands, kpoints)` arrays. -/
theorem insert_discontinuities_empty_identity (a : Arr) :
    insert_discontinuities a [] = a := by
  cases a with
  | d2 m =>
    simp [insert_discontinuities, insertRow_nil]
  | d3 ms =>
    simp [insert_discontinuities, insertRow_nil]

/-- Claim C9: for a 2-D input of shape `(b, k)` and a strictly increasing list
of `p` insertion positions in `[0, k]`, `insert_discontinuities` produces a
`(b, k + p)` array whose `p` inserted columns are all-NaN and whose remaining
columns are exactly the input columns in their original order; the same holds
per spin channel for a 3-D `(2, b, k)` input. -/
theorem insert_discontinuities_nan_columns
    (m : List (List FV)) (ms : List (List (List FV))) (k : ℕ) (ix : List ℕ)
    (hrect : ∀ r ∈ m, r.length = k)
    (hrect3 : ∀ sl ∈ ms, ∀ r ∈ sl, r.length = k)
    (hsort : List.Pairwise (· < ·) ix)
    (hbound : ∀ x ∈ ix, x ≤ k) :
    (∃ m', insert_discontinuities (.d2 m) ix = .d2 m' ∧ m'.length = m.length ∧
      List.Forall₂ (rowGapSpec k ix) m m') ∧
    (∃ ms', insert_discontinuities (.d3 ms) ix = .d3 ms' ∧ ms'.length = ms.length ∧
      List.Forall₂ (List.Forall₂ (rowGapSpec k ix)) ms ms') := by
  constructor
  · refine ⟨m.map (fun r => insertRow r ix), rfl, by simp, ?_⟩
    rw [List.forall₂_map_right_iff]
    rw [List.forall₂_same]
    intro r hr
    exact rowGapSpec_insertRow k ix r hsort hbound (hrect r hr)
  · refine ⟨ms.map (fun sl => sl.map (fun r => insertRow r ix)),
      (by rfl : insert_discontinuities (.d3 ms) ix =
        .d3 (ms.map (fun sl => sl.map (fun r => insertRow r ix)))), by simp, ?_⟩
    rw [List.forall₂_map_right_iff]
    rw [List.forall₂_same]
    intro sl hsl
    rw [List.forall₂_map_right_iff]
    rw [List.forall₂_same]
    intro r hr
    exact rowGapSpec_insertRow k ix r hsort hbound (hrect3 sl hsl r hr)

/-- Concrete instantiation of claim C9 at a 2×2 array and a 1×2×2 array with a
single insertion position. -/
theorem insert_discontinuities_nan_columns_witness :
    (∀ r ∈ [[some (1 : ℚ), some 2], [some 3, some 4]], r.length = 2) ∧
    (∀ sl ∈ [[[some (5 : ℚ), some 6]]], ∀ r ∈ sl, r.length = 2) ∧
    List.Pairwise (· < ·) [1] ∧ (∀ x ∈ [1], x ≤ 2) ∧
    ((∃ m', insert_discontinuities (.d2 [[some (1 : ℚ), some 2], [some 3, some 4]]) [1] = .d2 m' ∧
        m'.length = 2 ∧
        List.Forall₂ (rowGapSpec 2 [1]) [[some (1 : ℚ), some 2], [some 3, some 4]] m') ∧
      (∃ ms', insert_discontinuities (.d3 [[[some (5 : ℚ), some 6]]]) [1] = .d3 ms' ∧
        ms'.length = 1 ∧
        List.Forall₂ (List.Forall₂ (rowGapSpec 2 [1])) [[[some (5 : ℚ), some 6]]] ms')) :=
  ⟨by decide, by decide, by decide, by decide,
    insert_discontinuities_nan_columns
      [[some (1 : ℚ), some 2], [some 3, some 4]] [[[some (5 : ℚ), some 6]]] 2 [1]
      (by decide) (by decide) (by decide) (by decide)⟩

end OrbVis

namespace OrbVis

/-- The merging loop of `merge_close_ticks`: walk the remaining
`(position, label)` pairs keeping a current tick; a position within `tol` of
the current position is folded into the current label with a `|` separator,
otherwise the current tick is emitted and the walk restarts from the new
pair. -/
def mergeGo (tol : ℚ) : List (ℚ × String) → ℚ → String → List ℚ × List String
  | [], cv, cl => ([cv], [cl])
  | (v, l) :: rest, cv, cl =>
    if |v - cv| ≤ tol then mergeGo tol rest cv (cl ++ "|" ++ l)
    else
      let m := mergeGo tol rest v l
      (cv :: m.1, cl :: m.2)

/-- `merge_close_ticks(tick_vals, tick_labels, tol)` from
`orbvis/band/utils.py`.  Returns `none` when either list is empty or the
lengths differ (the `ValueError` branch). -/
def merge_close_ticks (tick_vals : List ℚ) (tick_labels : List String) (tol : ℚ) :
    Option (List ℚ × List String) :=
  match tick_vals, tick_labels with
  | v :: vs, l :: ls =>
    if vs.length = ls.length then some (mergeGo tol (vs.zip ls) v l) else none
  | _, _ => none

theorem mergeGo_fst_head (tol : ℚ) :
    ∀ (ps : List (ℚ × String)) (cv : ℚ) (cl : String),
      (mergeGo tol ps cv cl).1.head? = some cv := by
  intro ps
  induction ps with
  | nil => intro cv cl; rfl
  | cons p rest ih =>
    intro cv cl
    obtain ⟨v, l⟩ := p
    by_cases h : |v - cv| ≤ tol
    · simp only [mergeGo, if_pos h]
      exact ih cv (cl ++ "|" ++ l)
    · simp [mergeGo, if_neg h]

theorem mergeGo_lengths (tol : ℚ) :
    ∀ (ps : List (ℚ × String)) (cv : ℚ) (cl : String),
      (mergeGo tol ps cv cl).1.length = (mergeGo tol ps cv cl).2.length := by
  intro ps
  induction ps with
  | nil => intro cv cl; rfl
  | cons p rest ih =>
    intro cv cl
    obtain ⟨v, l⟩ := p
    by_cases h : |v - cv| ≤ tol
    · simp only [mergeGo, if_pos h]
      exact ih cv (cl ++ "|" ++ l)
    · simp only [mergeGo, if_neg h, List.length_cons]
      rw [ih v l]

theorem mergeGo_far_chain (tol : ℚ) :
    ∀ (ps : List (ℚ × String)) (cv : ℚ) (cl : String),
      List.Chain' (fun a b => ¬ (|b - a| ≤ tol)) (mergeGo tol ps cv cl).1 := by
  intro ps
  induction ps with
  | nil => intro cv cl; simp [mergeGo]
  | cons p rest ih =>
    intro cv cl
    obtain ⟨v, l⟩ := p
    by_cases h : |v - cv| ≤ tol
    · simp only [mergeGo, if_pos h]
      exact ih cv (cl ++ "|" ++ l)
    · simp only [mergeGo, if_neg h]
      refine List.chain'_cons'.mpr ⟨?_, ih v l⟩
      intro y hy
      rw [mergeGo_fst_head tol rest v l] at hy
      cases hy
      exact h

theorem mergeGo_far_id (tol : ℚ) :
    ∀ (vs : List ℚ) (ls : List String) (cv : ℚ) (cl : String),
      vs.length = ls.length →
      List.Chain' (fun a b => ¬ (|b - a| ≤ tol)) (cv :: vs) →
      mergeGo tol (vs.zip ls) cv cl = (cv :: vs, cl :: ls) := by
  intro vs
  induction vs with
  | nil =>
    intro ls cv cl hlen _
    have : ls = [] := List.length_eq_zero.mp hlen.symm
    subst this
    rfl
  | cons v vs ih =>
    intro ls cv cl hlen hchain
    cases ls with
    | nil => simp at hlen
    | cons l ls =>
      have hfar : ¬ (|v - cv| ≤ tol) := (List.chain'_cons.mp hchain).1
      have hrec := ih ls v l (by simpa using hlen) (List.chain'_cons.mp hchain).2
      simp only [List.zip_cons_cons, mergeGo, if_neg hfar]
      simp only [List.zip] at hrec
      rw [hrec]

/-- Claim C8: `merge_close_ticks` is idempotent — applying it a second time
(with the same tolerance) to its own output returns that output unchanged. -/
theorem merge_close_ticks_idempotent (tick_vals : List ℚ) (tick_labels : List String)
    (tol : ℚ) (out : List ℚ × List String)
    (h : merge_close_ticks tick_vals tick_labels tol = some out) :
    merge_close_ticks out.1 out.2 tol = some out := by
  match hv : tick_vals, hl : tick_labels with
  | [], _ => simp [merge_close_ticks] at h
  | v :: vs, [] => simp [merge_close_ticks] at h
  | v :: vs, l :: ls =>
    rw [merge_close_ticks] at h
    by_cases hlen : vs.length = ls.length
    · rw [if_pos hlen] at h
      injection h with h
      obtain ⟨t, ht⟩ : ∃ t, out.1 = v :: t := by
        have := mergeGo_fst_head tol (vs.zip ls) v l
        rw [h] at this
        cases hout : out.1 with
        | nil => rw [hout] at this; simp at this
        | cons a t =>
          rw [hout] at this
          simp only [List.head?_cons, Option.some.injEq] at this
          exact ⟨t, by rw [this]⟩
      obtain ⟨l₀, ls₀, hl₀⟩ : ∃ l₀ ls₀, out.2 = l₀ :: ls₀ := by
        have hlens := mergeGo_lengths tol (vs.zip ls) v l
        rw [h] at hlens
        cases hout : out.2 with
        | nil => rw [hout, ht] at hlens; simp at hlens
        | cons l₀ ls₀ => exact ⟨l₀, ls₀, rfl⟩
      have hlens := mergeGo_lengths tol (vs.zip ls) v l
      rw [h, ht, hl₀] at hlens
      simp only [List.length_cons, Nat.add_right_cancel_iff] at hlens
      have hchain := mergeGo_far_chain tol (vs.zip ls) v l
      rw [h, ht] at hchain
      rw [ht, hl₀, merge_close_ticks, if_pos hlens,
        mergeGo_far_id tol t ls₀ v l₀ hlens hchain]
      rw [← ht, ← hl₀]
    · rw [if_neg hlen] at h
      exact absurd h (by simp)

/-- Concrete instantiation of claim C8: ticks `[0, 1/2, 2]` with labels
`A`, `B`, `C` and tolerance `1` merge to `([0, 2], [A|B, C])`, and merging
that output again returns it unchanged. -/
theorem merge_eval_example :
    merge_close_ticks [0, 1/2, 2] (["A", "B", "C"]) 1 = some ([0, 2], ["A|B", "C"]) := by
  have h1 : |(1 : ℚ)/2| ≤ 1 := by rw [abs_of_nonneg] <;> norm_num
  have h2 : ¬ (|(3 : ℚ)/2| ≤ 1) := by rw [abs_of_nonneg] <;> norm_num
  norm_num [merge_close_ticks, mergeGo, h1, h2]
  rfl

theorem merge_close_ticks_idempotent_witness :
    merge_close_ticks [0, 1/2, 2] (["A", "B", "C"]) 1 = some ([0, 2], ["A|B", "C"]) ∧
    merge_close_ticks [0, 2] (["A|B", "C"]) 1 = some ([0, 2], ["A|B", "C"]) :=
  ⟨merge_eval_example, merge_close_ticks_idempotent [0, 1/2, 2] (["A", "B", "C"]) 1
    ([0, 2], ["A|B", "C"]) merge_eval_example⟩

end OrbVis

namespace OrbVis

/-- A cleaned k-point `(index, kx, ky, kz)` as produced by `clean_kpoints`.
Coordinates are exact rationals (Python floats are rationals). -/
structure CPt where
  idx : ℤ
  kx : ℚ
  ky : ℚ
  kz : ℚ
deriving DecidableEq

/-- The coordinate triple of a cleaned k-point. -/
def ptCoords (p : CPt) : ℚ × ℚ × ℚ := (p.kx, p.ky, p.kz)

/-- `dist_bw_two_kpoints(kpt1, kpt2)` from `orbvis/band/utils.py`:
`sqrt(dot(kpt1 - kpt2, kpt1 - kpt2))`. -/
noncomputable def dist_bw_two_kpoints (p q : ℚ × ℚ × ℚ) : ℝ :=
  Real.sqrt (((p.1 - q.1) * (p.1 - q.1) + (p.2.1 - q.2.1) * (p.2.1 - q.2.1) +
    (p.2.2 - q.2.2) * (p.2.2 - q.2.2) : ℚ) : ℝ)

/-- The raw Euclidean segment lengths between consecutive cleaned k-points
(`d_raw` of the loop in `compute_kpoint_distances`). -/
noncomputable def pairRawDists (ps : List CPt) : List ℝ :=
  List.zipWith (fun a b => dist_bw_two_kpoints (ptCoords a) (ptCoords b)) ps ps.tail

/-- The jump-cutoff clipping of one segment: `if d_raw > jump_cutoff: d = 0.0
else: d = d_raw`. -/
noncomputable def clipSeg (jump_cutoff d_raw : ℝ) : ℝ :=
  if jump_cutoff < d_raw then 0 else d_raw

/-- `segment_dists` of `compute_kpoint_distances`: a leading `0.0` followed by
the clipped consecutive segment lengths. -/
noncomputable def segment_dists (ps : List CPt) (jump_cutoff : ℝ) : List ℝ :=
  0 :: (pairRawDists ps).map (clipSeg jump_cutoff)

/-- `cumulative_dists` of `compute_kpoint_distances`: running sums of the
clipped segment lengths, starting from `0.0`. -/
noncomputable def cumulative_dists (ps : List CPt) (jump_cutoff : ℝ) : List ℝ :=
  List.scanl (· + ·) 0 ((pairRawDists ps).map (clipSeg jump_cutoff))

/-- `total_length = cumulative_dists[-1]`. -/
noncomputable def total_length (ps : List CPt) (jump_cutoff : ℝ) : ℝ :=
  (cumulative_dists ps jump_cutoff).getLastD 0

/-- `scaled_dists` of `compute_kpoint_distances`: if the (clipped) total length
is zero the cumulative list is returned as is, otherwise every entry is
multiplied by `x_scale / total_length`. -/
noncomputable def scaled_dists (ps : List CPt) (x_scale jump_cutoff : ℝ) : List ℝ :=
  if total_length ps jump_cutoff = 0 then cumulative_dists ps jump_cutoff
  else (cumulative_dists ps jump_cutoff).map (fun d => d * (x_scale / total_length ps jump_cutoff))

/-- `compute_kpoint_distances(cleaned_kpoints, x_scale, jump_cutoff)` from
`orbvis/band/utils.py`: returns
`full_data = zip(indices, segment_dists, cumulative_dists, scaled_dists)` and
`reduced_data = zip(indices, scaled_dists)`. -/
noncomputable def compute_kpoint_distances (ps : List CPt) (x_scale jump_cutoff : ℝ) :
    List (ℤ × ℝ × ℝ × ℝ) × List (ℤ × ℝ) :=
  (List.zipWith (fun p scd => (p.idx, scd)) ps
      ((segment_dists ps jump_cutoff).zip
        ((cumulative_dists ps jump_cutoff).zip (scaled_dists ps x_scale jump_cutoff))),
    List.zipWith (fun p d => (p.idx, d)) ps (scaled_dists ps x_scale jump_cutoff))

/-- The raw Euclidean length of the segment entering the `(i+1)`-st cleaned
k-point. -/
noncomputable def dRaw (ps : List CPt) (i : ℕ) : ℝ :=
  dist_bw_two_kpoints (ptCoords (ps.getD i ⟨0, 0, 0, 0⟩))
    (ptCoords (ps.getD (i + 1) ⟨0, 0, 0, 0⟩))

end OrbVis

namespace OrbVis

theorem dist_bw_two_kpoints_nonneg (p q : ℚ × ℚ × ℚ) : 0 ≤ dist_bw_two_kpoints p q :=
  Real.sqrt_nonneg _

theorem mem_zipWith_imp {α β γ : Type} {f : α → β → γ} :
    ∀ (l₁ : List α) (l₂ : List β) (x : γ), x ∈ List.zipWith f l₁ l₂ →
      ∃ a b, a ∈ l₁ ∧ b ∈ l₂ ∧ x = f a b := by
  intro l₁
  induction l₁ with
  | nil => intro l₂ x hx; simp at hx
  | cons a t ih =>
    intro l₂ x hx
    cases l₂ with
    | nil => simp at hx
    | cons b t₂ =>
      simp only [List.zipWith_cons_cons, List.mem_cons] at hx
      rcases hx with rfl | hx
      · exact ⟨a, b, by simp, by simp, rfl⟩
      · obtain ⟨a', b', ha', hb', rfl⟩ := ih t₂ x hx
        exact ⟨a', b', by simp [ha'], by simp [hb'], rfl⟩

theorem pairRawDists_nonneg (ps : List CPt) : ∀ d ∈ pairRawDists ps, 0 ≤ d := by
  intro d hd
  obtain ⟨a, b, _, _, rfl⟩ := mem_zipWith_imp ps ps.tail d hd
  exact dist_bw_two_kpoints_nonneg _ _

theorem clipped_nonneg (ps : List CPt) (c : ℝ) :
    ∀ x ∈ (pairRawDists ps).map (clipSeg c), 0 ≤ x := by
  intro x hx
  simp only [List.mem_map] at hx
  obtain ⟨d, hd, rfl⟩ := hx
  have := pairRawDists_nonneg ps d hd
  unfold clipSeg
  split <;> simp [this]

theorem scanl_head? {a : ℝ} (l : List ℝ) :
    (List.scanl (· + ·) a l).head? = some a := by
  cases l <;> simp [List.scanl]

theorem scanl_add_chain_le :
    ∀ (l : List ℝ) (a : ℝ), (∀ x ∈ l, 0 ≤ x) →
      List.Chain' (· ≤ ·) (List.scanl (· + ·) a l) := by
  intro l
  induction l with
  | nil => intro a _; simp
  | cons x t ih =>
    intro a h
    rw [List.scanl_cons, List.singleton_append]
    refine List.chain'_cons'.mpr ⟨?_, ih (a + x) (fun y hy => h y (by simp [hy]))⟩
    intro y hy
    rw [scanl_head?] at hy
    cases hy
    have := h x (by simp)
    linarith

theorem scanl_add_getLastD :
    ∀ (l : List ℝ) (a d : ℝ), (List.scanl (· + ·) a l).getLastD d = a + l.sum := by
  intro l
  induction l with
  | nil => intro a d; simp
  | cons x t ih =>
    intro a d
    rw [List.scanl_cons, List.singleton_append, List.getLastD_cons, ih (a + x) a]
    simp only [List.sum_cons]
    ring

theorem getLastD_eq_of_ne_nil {α : Type} (l : List α) (h : l ≠ []) (d₁ d₂ : α) :
    l.getLastD d₁ = l.getLastD d₂ := by
  cases l with
  | nil => exact absurd rfl h
  | cons x t =>
    simp only [List.getLastD_eq_getLast?, List.getLast?_cons]
    rfl

theorem chain'_le_getLastD :
    ∀ (l : List ℝ), List.Chain' (· ≤ ·) l → ∀ (d : ℝ), ∀ y ∈ l, y ≤ l.getLastD d := by
  intro l
  induction l with
  | nil => intro _ d y hy; simp at hy
  | cons a t ih =>
    intro hc d y hy
    cases t with
    | nil =>
      simp only [List.mem_singleton] at hy
      subst hy
      simp
    | cons b t' =>
      have hab : a ≤ b := (List.chain'_cons.mp hc).1
      have hct : List.Chain' (· ≤ ·) (b :: t') := (List.chain'_cons.mp hc).2
      rw [List.getLastD_cons]
      have hb : b ≤ (b :: t').getLastD a := ih hct a b (by simp)
      rcases List.mem_cons.mp hy with h1 | hy'
      · subst h1
        linarith
      · exact ih hct a y hy'

theorem map_snd_zipWith_idx :
    ∀ (ps : List CPt) (l : List ℝ),
      (List.zipWith (fun p d => (p.idx, d)) ps l).map Prod.snd = l.take ps.length := by
  intro ps
  induction ps with
  | nil => intro l; simp
  | cons p t ih =>
    intro l
    cases l with
    | nil => simp
    | cons x xs =>
      simp only [List.zipWith_cons_cons, List.map_cons, List.length_cons, List.take_succ_cons]
      rw [ih xs]

theorem cumulative_dists_ne_nil (ps : List CPt) (c : ℝ) :
    cumulative_dists ps c ≠ [] := by
  unfold cumulative_dists
  cases ((pairRawDists ps).map (clipSeg c)) <;> simp [List.scanl]

theorem total_length_eq_sum (ps : List CPt) (c : ℝ) :
    total_length ps c = ((pairRawDists ps).map (clipSeg c)).sum := by
  unfold total_length cumulative_dists
  rw [scanl_add_getLastD]
  ring

theorem total_length_nonneg (ps : List CPt) (c : ℝ) : 0 ≤ total_length ps c := by
  rw [total_length_eq_sum]
  exact List.sum_nonneg (clipped_nonneg ps c)

theorem scaled_dists_length (ps : List CPt) (x c : ℝ) :
    (scaled_dists ps x c).length = ps.length - 1 + 1 := by
  have hcum : (cumulative_dists ps c).length = ps.length - 1 + 1 := by
    unfold cumulative_dists
    rw [List.length_scanl]
    simp only [List.length_map, pairRawDists, List.length_zipWith, List.length_tail]
    omega
  unfold scaled_dists
  split
  · exact hcum
  · rw [List.length_map]; exact hcum

end OrbVis

namespace OrbVis

theorem scanl_getD_succ :
    ∀ (l : List ℝ) (a : ℝ) (i : ℕ), i < l.length →
      (List.scanl (· + ·) a l).getD (i + 1) 0
        = (List.scanl (· + ·) a l).getD i 0 + l.getD i 0 := by
  intro l
  induction l with
  | nil => intro a i hi; simp at hi
  | cons x t ih =>
    intro a i hi
    rw [List.scanl_cons, List.singleton_append]
    cases i with
    | zero =>
      have hhead : (List.scanl (· + ·) (a + x) t).getD 0 0 = a + x := by
        cases t <;> simp [List.scanl, List.getD]
      simp [List.getD_cons_succ, List.getD_cons_zero, hhead]
    | succ i =>
      have hi' : i < t.length := by simpa using hi
      simp only [List.getD_cons_succ]
      exact ih (a + x) i hi'

theorem pairRawDists_length (ps : List CPt) :
    (pairRawDists ps).length = ps.length - 1 := by
  unfold pairRawDists
  simp only [List.length_zipWith, List.length_tail]
  omega

theorem pairRawDists_getD (ps : List CPt) (i : ℕ) (hi : i + 1 < ps.length) :
    (pairRawDists ps).getD i 0 = dRaw ps i := by
  have hlen : i < (pairRawDists ps).length := by
    rw [pairRawDists_length]; omega
  have h1 : i < ps.length := by omega
  have h2 : i < ps.tail.length := by simp; omega
  have htail : ps.tail.get ⟨i, h2⟩ = ps.get ⟨i + 1, hi⟩ := by
    simp
  rw [List.getD_eq_getElem _ _ hlen]
  unfold pairRawDists
  rw [List.getElem_zipWith]
  unfold dRaw
  rw [List.getD_eq_getElem _ _ h1, List.getD_eq_getElem _ _ hi]
  rw [show ps.tail[i] = ps[i + 1] from htail]

theorem clipped_getD (ps : List CPt) (c : ℝ) (i : ℕ) (hi : i + 1 < ps.length) :
    ((pairRawDists ps).map (clipSeg c)).getD i 0 = clipSeg c (dRaw ps i) := by
  have hlen : i < (pairRawDists ps).length := by
    rw [pairRawDists_length]; omega
  rw [List.getD_eq_getElem _ _ (by simpa using hlen), List.getElem_map,
    ← List.getD_eq_getElem _ (0 : ℝ) hlen, pairRawDists_getD ps i hi]

/-- Claim C3: in `compute_kpoint_distances`, a segment between consecutive
cleaned k-points whose raw Euclidean length exceeds the jump cutoff
(default `0.25`) contributes exactly zero to the cumulative distance, while a
segment whose raw length is at most the cutoff contributes its full raw
Euclidean length. -/
theorem compute_kpoint_distances_segment_contribution (ps : List CPt)
    (jump_cutoff : ℝ) (i : ℕ) (hi : i + 1 < ps.length) :
    (jump_cutoff < dRaw ps i →
      (cumulative_dists ps jump_cutoff).getD (i + 1) 0
        = (cumulative_dists ps jump_cutoff).getD i 0) ∧
    (dRaw ps i ≤ jump_cutoff →
      (cumulative_dists ps jump_cutoff).getD (i + 1) 0
        = (cumulative_dists ps jump_cutoff).getD i 0 + dRaw ps i) := by
  have hmem : i < ((pairRawDists ps).map (clipSeg jump_cutoff)).length := by
    simp only [List.length_map]
    rw [pairRawDists_length]
    omega
  have hstep := scanl_getD_succ ((pairRawDists ps).map (clipSeg jump_cutoff)) 0 i hmem
  have hclip := clipped_getD ps jump_cutoff i hi
  unfold cumulative_dists
  constructor
  · intro hgt
    rw [hstep, hclip]
    unfold clipSeg
    rw [if_pos hgt]
    ring
  · intro hle
    rw [hstep, hclip]
    unfold clipSeg
    rw [if_neg (by linarith)]

/-- Claim C2 (amended): for every non-empty cleaned k-point list, any jump
cutoff and any `x_scale ≥ 0`, the scaled cumulative-distance sequence returned
by `compute_kpoint_distances` (the second coordinates of `reduced_data`) is
non-decreasing; and whenever `x_scale > 0` and the total clipped path length
is positive, the final (and maximal) scaled value equals `x_scale` exactly. -/
theorem compute_kpoint_distances_monotone_max (ps : List CPt)
    (x_scale jump_cutoff : ℝ) (hps : ps ≠ []) (hx : 0 ≤ x_scale) :
    (compute_kpoint_distances ps x_scale jump_cutoff).2.map Prod.snd
        = scaled_dists ps x_scale jump_cutoff ∧
    List.Chain' (· ≤ ·) (scaled_dists ps x_scale jump_cutoff) ∧
    (0 < x_scale → 0 < total_length ps jump_cutoff →
      (scaled_dists ps x_scale jump_cutoff).getLastD 0 = x_scale ∧
      ∀ y ∈ scaled_dists ps x_scale jump_cutoff, y ≤ x_scale) := by
  have hlen : (scaled_dists ps x_scale jump_cutoff).length = ps.length := by
    rw [scaled_dists_length]
    have : 1 ≤ ps.length := List.length_pos.mpr hps
    omega
  have hchaincum : List.Chain' (· ≤ ·) (cumulative_dists ps jump_cutoff) :=
    scanl_add_chain_le _ 0 (clipped_nonneg ps jump_cutoff)
  refine ⟨?_, ?_, ?_⟩
  · show (List.zipWith (fun p d => (p.idx, d)) ps
      (scaled_dists ps x_scale jump_cutoff)).map Prod.snd = _
    rw [map_snd_zipWith_idx ps _, ← hlen, List.take_length]
  · unfold scaled_dists
    split
    · exact hchaincum
    · rename_i hne
      have htpos : 0 < total_length ps jump_cutoff :=
        lt_of_le_of_ne (total_length_nonneg ps jump_cutoff) (Ne.symm hne)
      have hc : 0 ≤ x_scale / total_length ps jump_cutoff :=
        div_nonneg hx (le_of_lt htpos)
      exact List.chain'_map_of_chain' _
        (fun a b hab => mul_le_mul_of_nonneg_right hab hc) hchaincum
  · intro hxpos htpos
    have hne : total_length ps jump_cutoff ≠ 0 := ne_of_gt htpos
    have hscaled : scaled_dists ps x_scale jump_cutoff
        = (cumulative_dists ps jump_cutoff).map
            (fun d => d * (x_scale / total_length ps jump_cutoff)) := by
      unfold scaled_dists
      rw [if_neg hne]
    constructor
    · rw [hscaled]
      obtain ⟨z, hz⟩ : ∃ z, (cumulative_dists ps jump_cutoff).getLast? = some z :=
        Option.isSome_iff_exists.mp
          (List.getLast?_isSome.mpr (cumulative_dists_ne_nil ps jump_cutoff))
      have hzval : z = total_length ps jump_cutoff := by
        unfold total_length
        rw [List.getLastD_eq_getLast?, hz]
        rfl
      rw [List.getLastD_eq_getLast?, List.getLast?_map, hz]
      simp only [Option.map_some', Option.getD_some]
      rw [hzval]
      field_simp
    · rw [hscaled]
      intro y hy
      simp only [List.mem_map] at hy
      obtain ⟨z, hz, rfl⟩ := hy
      have hzle : z ≤ total_length ps jump_cutoff :=
        chain'_le_getLastD _ hchaincum 0 z hz
      have hc : 0 ≤ x_scale / total_length ps jump_cutoff :=
        div_nonneg hx (le_of_lt htpos)
      calc z * (x_scale / total_length ps jump_cutoff)
          ≤ total_length ps jump_cutoff * (x_scale / total_length ps jump_cutoff) :=
            mul_le_mul_of_nonneg_right hzle hc
        _ = x_scale := by field_simp

end OrbVis

namespace OrbVis

/-- Γ, a nearby point, and a far point, used as concrete cleaned k-points. -/
def cpA : CPt := ⟨0, 0, 0, 0⟩

/-- A cleaned k-point at distance `1/10` from `cpA`. -/
def cpB : CPt := ⟨1, 1/10, 0, 0⟩

/-- A cleaned k-point at distance `1` from `cpA`. -/
def cpC : CPt := ⟨2, 1, 0, 0⟩

theorem dist_cpA_cpB : dist_bw_two_kpoints (ptCoords cpA) (ptCoords cpB) = 1 / 10 := by
  unfold dist_bw_two_kpoints ptCoords cpA cpB
  have harg : (((0 - 1/10) * (0 - 1/10) + (0 - 0) * (0 - 0) + (0 - 0) * (0 - 0) : ℚ) : ℝ)
      = (1/10 : ℝ)^2 := by
    push_cast
    ring
  simp only [harg]
  rw [Real.sqrt_sq (by norm_num : (0:ℝ) ≤ 1/10)]

theorem dist_cpA_cpC : dist_bw_two_kpoints (ptCoords cpA) (ptCoords cpC) = 1 := by
  unfold dist_bw_two_kpoints ptCoords cpA cpC
  have harg : (((0 - 1) * (0 - 1) + (0 - 0) * (0 - 0) + (0 - 0) * (0 - 0) : ℚ) : ℝ) = 1 := by
    push_cast
    ring
  rw [harg, Real.sqrt_one]

theorem pairRawDists_AB : pairRawDists [cpA, cpB] = [1 / 10] := by
  unfold pairRawDists
  simp only [List.tail_cons, List.zipWith_cons_cons, List.zipWith_nil_right]
  rw [dist_cpA_cpB]

theorem pairRawDists_AC : pairRawDists [cpA, cpC] = [1] := by
  unfold pairRawDists
  simp only [List.tail_cons, List.zipWith_cons_cons, List.zipWith_nil_right]
  rw [dist_cpA_cpC]

theorem scaled_dists_AB_neg : scaled_dists [cpA, cpB] (-1) (1/4) = [0, -1] := by
  have hclip : (pairRawDists [cpA, cpB]).map (clipSeg (1/4)) = [1/10] := by
    rw [pairRawDists_AB]
    simp only [List.map_cons, List.map_nil]
    unfold clipSeg
    rw [if_neg (by norm_num : ¬ ((1:ℝ)/4 < 1/10))]
  have hcum : cumulative_dists [cpA, cpB] (1/4) = [0, 1/10] := by
    unfold cumulative_dists
    rw [hclip]
    simp [List.scanl]
  have htot : total_length [cpA, cpB] (1/4) = 1/10 := by
    unfold total_length
    rw [hcum]
    simp
  unfold scaled_dists
  rw [if_neg (by rw [htot]; norm_num), hcum, htot]
  norm_num

theorem scaled_dists_AC_one : scaled_dists [cpA, cpC] 1 (1/4) = [0, 0] := by
  have hclip : (pairRawDists [cpA, cpC]).map (clipSeg (1/4)) = [0] := by
    rw [pairRawDists_AC]
    simp only [List.map_cons, List.map_nil]
    unfold clipSeg
    rw [if_pos (by norm_num : (1:ℝ)/4 < 1)]
  have hcum : cumulative_dists [cpA, cpC] (1/4) = [0, 0] := by
    unfold cumulative_dists
    rw [hclip]
    simp [List.scanl]
  have htot : total_length [cpA, cpC] (1/4) = 0 := by
    unfold total_length
    rw [hcum]
    simp
  unfold scaled_dists
  rw [if_pos htot, hcum]

/-- Claim C2 as literally stated is false on two counts: with a negative target
width the scaled sequence is strictly decreasing, and with a positive target
width the final scaled value can differ from the target even though the total
*raw* path length is positive (the code normalises by the *clipped* total,
which is zero when every segment exceeds the jump cutoff). -/
theorem compute_kpoint_distances_claim_counterexample :
    (¬ List.Chain' (· ≤ ·) (scaled_dists [cpA, cpB] (-1) (1/4))) ∧
    ((0:ℝ) < 1 ∧ 0 < (pairRawDists [cpA, cpC]).sum ∧
      (scaled_dists [cpA, cpC] 1 (1/4)).getLastD 0 ≠ 1) := by
  refine ⟨?_, by norm_num, ?_, ?_⟩
  · rw [scaled_dists_AB_neg]
    intro h
    have := (List.chain'_cons.mp h).1
    linarith
  · rw [pairRawDists_AC]
    norm_num
  · rw [scaled_dists_AC_one]
    norm_num

/-- Concrete instantiation of the amended claim C2 at the two-point path
`[cpA, cpB]` with target width `2`. -/
theorem compute_kpoint_distances_monotone_max_witness :
    (([cpA, cpB] : List CPt) ≠ []) ∧ ((0:ℝ) ≤ 2) ∧
    ((compute_kpoint_distances [cpA, cpB] 2 (1/4)).2.map Prod.snd
        = scaled_dists [cpA, cpB] 2 (1/4) ∧
      List.Chain' (· ≤ ·) (scaled_dists [cpA, cpB] 2 (1/4)) ∧
      (0 < (2:ℝ) → 0 < total_length [cpA, cpB] (1/4) →
        (scaled_dists [cpA, cpB] 2 (1/4)).getLastD 0 = 2 ∧
        ∀ y ∈ scaled_dists [cpA, cpB] 2 (1/4), y ≤ 2)) :=
  ⟨by decide, by norm_num,
    compute_kpoint_distances_monotone_max [cpA, cpB] 2 (1/4) (by decide) (by norm_num)⟩

/-- Concrete instantiation of claim C3 at the path `[cpA, cpB, cpC]` with the
default cutoff `1/4`, for the first segment. -/
theorem compute_kpoint_distances_segment_contribution_witness :
    ((0:ℕ) + 1 < ([cpA, cpB, cpC] : List CPt).length) ∧
    (((1:ℝ)/4 < dRaw [cpA, cpB, cpC] 0 →
      (cumulative_dists [cpA, cpB, cpC] (1/4)).getD (0 + 1) 0
        = (cumulative_dists [cpA, cpB, cpC] (1/4)).getD 0 0) ∧
    (dRaw [cpA, cpB, cpC] 0 ≤ (1:ℝ)/4 →
      (cumulative_dists [cpA, cpB, cpC] (1/4)).getD (0 + 1) 0
        = (cumulative_dists [cpA, cpB, cpC] (1/4)).getD 0 0 + dRaw [cpA, cpB, cpC] 0)) :=
  ⟨by decide,
    compute_kpoint_distances_segment_contribution [cpA, cpB, cpC] (1/4) 0 (by decide)⟩

end OrbVis

namespace OrbVis

/-- `np.abs` on an exact float value, written with an explicit sign test. -/
def ratAbs (x : ℚ) : ℚ := if x < 0 then -x else x

/-- Python `int()` applied to a float: truncation toward zero. -/
def pyInt (q : ℚ) : ℤ := q.num.tdiv (q.den : ℤ)

/-- One row of the raw k-point table `[index, kx, ky, kz, weight]` consumed by
`clean_kpoints`. -/
structure KRow where
  idx : ℚ
  kx : ℚ
  ky : ℚ
  kz : ℚ
  w : ℚ
deriving DecidableEq

/-- `np.allclose` default absolute tolerance `1e-8` (the value passed as
`atol`). -/
def np_atol : ℚ := 1 / 100000000

/-- `np.allclose` default relative tolerance `1e-5` (left at its default by
the call in `clean_kpoints`). -/
def np_rtol : ℚ := 1 / 100000

/-- `np.allclose(prev, current, atol=1e-8)` on coordinate triples: every
component satisfies `|a - b| <= atol + rtol * |b|`. -/
def np_allclose (a b : ℚ × ℚ × ℚ) : Prop :=
  ratAbs (a.1 - b.1) ≤ np_atol + np_rtol * ratAbs b.1 ∧
  ratAbs (a.2.1 - b.2.1) ≤ np_atol + np_rtol * ratAbs b.2.1 ∧
  ratAbs (a.2.2 - b.2.2) ≤ np_atol + np_rtol * ratAbs b.2.2

instance (a b : ℚ × ℚ × ℚ) : Decidable (np_allclose a b) := by
  unfold np_allclose
  infer_instance

/-- Step 2 of `clean_kpoints`: walk the kept rows dropping any row whose
coordinates are `np.allclose` to the previously kept row; kept rows become
`(int(idx), kx, ky, kz)` tuples. -/
def dedupGo : Option (ℚ × ℚ × ℚ) → List KRow → List CPt
  | _, [] => []
  | none, r :: rs =>
    ⟨pyInt r.idx, r.kx, r.ky, r.kz⟩ :: dedupGo (some (r.kx, r.ky, r.kz)) rs
  | some p, r :: rs =>
    if np_allclose p (r.kx, r.ky, r.kz) then dedupGo (some p) rs
    else ⟨pyInt r.idx, r.kx, r.ky, r.kz⟩ :: dedupGo (some (r.kx, r.ky, r.kz)) rs

/-- Step 1 of `clean_kpoints`: if all weights agree with the first weight
within `weight_tol`, keep every row; otherwise keep only rows of
(approximately) zero weight. -/
def weight_filter (t : List KRow) (weight_tol : ℚ) : List KRow :=
  let w0 := (t.headD ⟨0, 0, 0, 0, 0⟩).w
  if ∀ r ∈ t, ratAbs (r.w - w0) < weight_tol then t
  else t.filter (fun r => decide (ratAbs r.w < weight_tol))

/-- Steps 1–2 of `clean_kpoints`: the cleaned k-point list. -/
def cleaned_of (t : List KRow) (weight_tol : ℚ) : List CPt :=
  dedupGo none (weight_filter t weight_tol)

/-- `np.linalg.norm` of a 3-vector. -/
noncomputable def np_norm (v : ℝ × ℝ × ℝ) : ℝ :=
  Real.sqrt (v.1 * v.1 + v.2.1 * v.2.1 + v.2.2 * v.2.2)

/-- `np.dot` of two 3-vectors. -/
noncomputable def np_dot (a b : ℝ × ℝ × ℝ) : ℝ :=
  a.1 * b.1 + a.2.1 * b.2.1 + a.2.2 * b.2.2

/-- `np.clip(x, lo, hi)`. -/
noncomputable def np_clip (x lo hi : ℝ) : ℝ := max lo (min x hi)

/-- `np.degrees`: radians to degrees. -/
noncomputable def np_degrees (x : ℝ) : ℝ := x * (180 / Real.pi)

/-- `angle_between(v1, v2)` from `orbvis/band/utils.py`: returns `0.0` when
either vector has zero norm, otherwise the angle in degrees obtained from the
clipped normalised dot product. -/
noncomputable def angle_between (v1 v2 : ℝ × ℝ × ℝ) : ℝ :=
  if np_norm v1 = 0 ∨ np_norm v2 = 0 then 0
  else np_degrees (Real.arccos (np_clip (np_dot v1 v2 / (np_norm v1 * np_norm v2)) (-1) 1))

/-- The angle formula exactly as the claim words it: inverse cosine of the
normalised dot product, without the clipping the code applies. -/
noncomputable def claimAngle (v1 v2 : ℝ × ℝ × ℝ) : ℝ :=
  if np_norm v1 = 0 ∨ np_norm v2 = 0 then 0
  else np_degrees (Real.arccos (np_dot v1 v2 / (np_norm v1 * np_norm v2)))

/-- The direction vector from cleaned k-point `a` to cleaned k-point `b`. -/
noncomputable def vecQ (a b : CPt) : ℝ × ℝ × ℝ :=
  (((b.kx - a.kx : ℚ) : ℝ), ((b.ky - a.ky : ℚ) : ℝ), ((b.kz - a.kz : ℚ) : ℝ))

/-- The default cleaned k-point used with `List.getD`. -/
def cpDflt : CPt := ⟨0, 0, 0, 0⟩

/-- The vertex test of step 3 of `clean_kpoints` at interior position `i`:
the direction change exceeds `angle_tolerance_deg` (default `5.0`) or the jump
from the previous point exceeds `jump_threshold` (default `0.2`). -/
def hsCond (c : List CPt) (angle_tolerance_deg jump_threshold : ℝ) (i : ℕ) : Prop :=
  angle_between (vecQ (c.getD (i - 1) cpDflt) (c.getD i cpDflt))
      (vecQ (c.getD i cpDflt) (c.getD (i + 1) cpDflt)) > angle_tolerance_deg ∨
  np_norm (vecQ (c.getD (i - 1) cpDflt) (c.getD i cpDflt)) > jump_threshold

/-- The loop of step 3 of `clean_kpoints`: the indices of the interior points
(positions `1 … len-2`) that pass the vertex test, in order. -/
noncomputable def high_sym_interior (c : List CPt) (tol jump : ℝ) : List ℤ :=
  ((List.range' 1 (c.length - 2)).filter
      (fun i => @decide (hsCond c tol jump i) (Classical.propDecidable _))).map
    (fun i => (c.getD i cpDflt).idx)

/-- Step 3 of `clean_kpoints`: the high-symmetry index list — the first cleaned
index, the detected interior vertices, then the last cleaned index. -/
noncomputable def high_sym_of (c : List CPt) (tol jump : ℝ) : List ℤ :=
  match c with
  | [] => []
  | p :: rest =>
    p.idx :: (high_sym_interior (p :: rest) tol jump ++ [((p :: rest).getLastD p).idx])

/-- `clean_kpoints(k_point_array, angle_tolerance_deg=5.0, jump_threshold=0.2,
weight_tol=1e-3)` from `orbvis/band/utils.py`.  `none` models the `IndexError`
raised when the table, or the cleaned list, is empty (`weights[0]` /
`cleaned_kpoints[0]`). -/
noncomputable def clean_kpoints (t : List KRow)
    (angle_tolerance_deg jump_threshold : ℝ) (weight_tol : ℚ) :
    Option (List CPt × List ℤ) :=
  if t = [] then none
  else if cleaned_of t weight_tol = [] then none
  else some (cleaned_of t weight_tol,
    high_sym_of (cleaned_of t weight_tol) angle_tolerance_deg jump_threshold)

end OrbVis

namespace OrbVis

theorem np_norm_nonneg (v : ℝ × ℝ × ℝ) : 0 ≤ np_norm v := Real.sqrt_nonneg _

theorem abs_np_dot_le (v w : ℝ × ℝ × ℝ) : |np_dot v w| ≤ np_norm v * np_norm w := by
  obtain ⟨a, b, c⟩ := v
  obtain ⟨d, e, f⟩ := w
  unfold np_dot np_norm
  simp only
  have hcs : (a * d + b * e + c * f) ^ 2 ≤ (a * a + b * b + c * c) * (d * d + e * e + f * f) := by
    nlinarith [sq_nonneg (a * e - b * d), sq_nonneg (a * f - c * d), sq_nonneg (b * f - c * e)]
  have h1 : (0:ℝ) ≤ a * a + b * b + c * c := by nlinarith [sq_nonneg a, sq_nonneg b, sq_nonneg c]
  have h2 : (0:ℝ) ≤ d * d + e * e + f * f := by nlinarith [sq_nonneg d, sq_nonneg e, sq_nonneg f]
  have : |a * d + b * e + c * f| = Real.sqrt ((a * d + b * e + c * f) ^ 2) :=
    (Real.sqrt_sq_eq_abs _).symm
  rw [this, ← Real.sqrt_mul h1]
  exact Real.sqrt_le_sqrt hcs

theorem claimAngle_eq_angle_between (v1 v2 : ℝ × ℝ × ℝ) :
    claimAngle v1 v2 = angle_between v1 v2 := by
  unfold claimAngle angle_between
  by_cases h : np_norm v1 = 0 ∨ np_norm v2 = 0
  · rw [if_pos h, if_pos h]
  · rw [if_neg h, if_neg h]
    push_neg at h
    have h1 : 0 < np_norm v1 := lt_of_le_of_ne (np_norm_nonneg v1) (Ne.symm h.1)
    have h2 : 0 < np_norm v2 := lt_of_le_of_ne (np_norm_nonneg v2) (Ne.symm h.2)
    have hprod : 0 < np_norm v1 * np_norm v2 := mul_pos h1 h2
    have habs : |np_dot v1 v2 / (np_norm v1 * np_norm v2)| ≤ 1 := by
      rw [abs_div, abs_of_pos hprod]
      rw [div_le_one hprod]
      exact abs_np_dot_le v1 v2
    have hle : np_dot v1 v2 / (np_norm v1 * np_norm v2) ≤ 1 := (abs_le.mp habs).2
    have hge : (-1 : ℝ) ≤ np_dot v1 v2 / (np_norm v1 * np_norm v2) := (abs_le.mp habs).1
    have hclip : np_clip (np_dot v1 v2 / (np_norm v1 * np_norm v2)) (-1) 1
        = np_dot v1 v2 / (np_norm v1 * np_norm v2) := by
      unfold np_clip
      rw [min_eq_left hle, max_eq_right hge]
    rw [hclip]

theorem getLastD_eq_getD_length_sub_one {α : Type} (l : List α) (h : l ≠ [])
    (d₁ d₂ : α) : l.getLastD d₁ = l.getD (l.length - 1) d₂ := by
  have hlen : l.length - 1 < l.length := by
    cases l with
    | nil => exact absurd rfl h
    | cons x t => simp
  rw [List.getD_eq_getElem _ _ hlen, List.getLastD_eq_getLast?,
    List.getLast?_eq_getLast l h, Option.getD_some, List.getLast_eq_getElem]

theorem nodup_idx_getD_inj (c : List CPt) (hnd : (c.map CPt.idx).Nodup)
    (a b : ℕ) (ha : a < c.length) (hb : b < c.length)
    (heq : (c.getD a cpDflt).idx = (c.getD b cpDflt).idx) : a = b := by
  rw [List.getD_eq_getElem _ _ ha, List.getD_eq_getElem _ _ hb] at heq
  have hma : a < (c.map CPt.idx).length := by simpa using ha
  have hmb : b < (c.map CPt.idx).length := by simpa using hb
  have hfun := List.nodup_iff_injective_getElem.mp hnd
  have hmapeq : (fun i : Fin (c.map CPt.idx).length => (c.map CPt.idx)[i.1]) ⟨a, hma⟩
      = (fun i : Fin (c.map CPt.idx).length => (c.map CPt.idx)[i.1]) ⟨b, hmb⟩ := by
    simp only [List.getElem_map]
    exact heq
  have hfin := hfun hmapeq
  exact congrArg Fin.val hfin

/-- Membership of an interior cleaned index in the high-symmetry list is
exactly the vertex test of the code. -/
theorem mem_high_sym_iff_hsCond (c : List CPt) (tol jump : ℝ)
    (hnd : (c.map CPt.idx).Nodup)
    (i : ℕ) (h1 : 1 ≤ i) (h2 : i + 1 < c.length) :
    ((c.getD i cpDflt).idx ∈ high_sym_of c tol jump ↔ hsCond c tol jump i) := by
  obtain ⟨p, rest, rfl⟩ : ∃ p rest, c = p :: rest := by
    cases c with
    | nil => simp at h2
    | cons p rest => exact ⟨p, rest, rfl⟩
  set c := p :: rest with hc
  have hn3 : 3 ≤ c.length := by
    simp only [hc, List.length_cons] at h2 ⊢
    omega
  have hp0 : p = c.getD 0 cpDflt := by rw [hc]; rfl
  have hlast : ((c.getLastD p).idx) = (c.getD (c.length - 1) cpDflt).idx := by
    rw [getLastD_eq_getD_length_sub_one c (by simp [hc]) p cpDflt]
  have hiff : ∀ j, j ∈ List.range' 1 (c.length - 2) ↔ 1 ≤ j ∧ j + 1 < c.length := by
    intro j
    rw [List.mem_range']
    constructor
    · rintro ⟨k, hk, rfl⟩
      omega
    · intro ⟨hj1, hj2⟩
      exact ⟨j - 1, by omega, by omega⟩
  constructor
  · intro hmem
    rw [high_sym_of] at hmem
    simp only [List.mem_cons, List.mem_append, List.mem_singleton, List.not_mem_nil,
      or_false] at hmem
    rcases hmem with hfirst | hint | hlst
    · exfalso
      have := nodup_idx_getD_inj c hnd i 0 (by omega) (by simp [hc])
        (by rw [← hp0]; exact hfirst)
      omega
    · unfold high_sym_interior at hint
      simp only [List.mem_map, List.mem_filter] at hint
      obtain ⟨j, ⟨hjr, hjc⟩, hjeq⟩ := hint
      have hjb := (hiff j).mp hjr
      have : j = i := nodup_idx_getD_inj c hnd j i (by omega) (by omega) hjeq
      subst this
      exact @of_decide_eq_true _ (Classical.propDecidable _) hjc
    · exfalso
      rw [hlast] at hlst
      have := nodup_idx_getD_inj c hnd i (c.length - 1) (by omega) (by omega) hlst
      omega
  · intro hcond
    rw [high_sym_of]
    simp only [List.mem_cons, List.mem_append, List.mem_singleton, List.not_mem_nil,
      or_false]
    refine Or.inr (Or.inl ?_)
    unfold high_sym_interior
    simp only [List.mem_map, List.mem_filter]
    exact ⟨i, ⟨(hiff i).mpr ⟨h1, h2⟩, @decide_eq_true _ (Classical.propDecidable _) hcond⟩, rfl⟩

end OrbVis

namespace OrbVis

/-- Claim C4: for a cleaned k-point list with at least three points, an
interior point `i` is in the high-symmetry index list iff the angle between
the incoming and outgoing direction vectors (arccos of the normalised dot
product, `0` when either vector is zero) exceeds the angle tolerance
(default 5°) or the Euclidean distance from the previous point exceeds the
jump threshold (default 0.2). -/
theorem clean_kpoints_vertex_test (c : List CPt) (tol jump : ℝ)
    (_h3 : 3 ≤ c.length) (hnd : (c.map CPt.idx).Nodup)
    (i : ℕ) (h1 : 1 ≤ i) (h2 : i + 1 < c.length) :
    ((c.getD i cpDflt).idx ∈ high_sym_of c tol jump ↔
      (claimAngle (vecQ (c.getD (i - 1) cpDflt) (c.getD i cpDflt))
          (vecQ (c.getD i cpDflt) (c.getD (i + 1) cpDflt)) > tol ∨
        np_norm (vecQ (c.getD (i - 1) cpDflt) (c.getD i cpDflt)) > jump)) := by
  rw [mem_high_sym_iff_hsCond c tol jump hnd i h1 h2]
  unfold hsCond
  rw [claimAngle_eq_angle_between]

/-- Concrete instantiation of claim C4: the middle point of a three-point
cleaned list with distinct indices. -/
theorem clean_kpoints_vertex_test_witness :
    3 ≤ ([cpA, cpB, cpC] : List CPt).length ∧
    (([cpA, cpB, cpC] : List CPt).map CPt.idx).Nodup ∧
    1 ≤ 1 ∧ 1 + 1 < ([cpA, cpB, cpC] : List CPt).length ∧
    ((([cpA, cpB, cpC] : List CPt).getD 1 cpDflt).idx
        ∈ high_sym_of [cpA, cpB, cpC] 5 (1/5) ↔
      (claimAngle
          (vecQ (([cpA, cpB, cpC] : List CPt).getD (1 - 1) cpDflt)
            (([cpA, cpB, cpC] : List CPt).getD 1 cpDflt))
          (vecQ (([cpA, cpB, cpC] : List CPt).getD 1 cpDflt)
            (([cpA, cpB, cpC] : List CPt).getD (1 + 1) cpDflt)) > 5 ∨
        np_norm (vecQ (([cpA, cpB, cpC] : List CPt).getD (1 - 1) cpDflt)
          (([cpA, cpB, cpC] : List CPt).getD 1 cpDflt)) > 1/5)) :=
  ⟨by decide, by decide, by decide, by decide,
    clean_kpoints_vertex_test [cpA, cpB, cpC] 5 (1/5) (by decide) (by decide) 1
      (by decide) (by decide)⟩

/-- Claim C5: whenever `clean_kpoints` succeeds, the returned high-symmetry
index list starts with the first cleaned k-point's index and ends with the
last cleaned k-point's index. -/
theorem clean_kpoints_first_last (t : List KRow) (tol jump : ℝ) (wtol : ℚ)
    (c : List CPt) (hs : List ℤ)
    (h : clean_kpoints t tol jump wtol = some (c, hs)) :
    hs.head? = some ((c.headD cpDflt).idx) ∧
    hs.getLast? = some ((c.getLastD cpDflt).idx) := by
  by_cases ht : t = []
  · rw [clean_kpoints, if_pos ht] at h
    cases h
  · rw [clean_kpoints, if_neg ht] at h
    by_cases hcnil : cleaned_of t wtol = []
    · rw [if_pos hcnil] at h
      cases h
    · rw [if_neg hcnil] at h
      simp only [Option.some.injEq, Prod.mk.injEq] at h
      obtain ⟨hceq, hhseq⟩ := h
      obtain ⟨p, rest, hc⟩ : ∃ p rest, cleaned_of t wtol = p :: rest := by
        cases hx : cleaned_of t wtol with
        | nil => exact absurd hx hcnil
        | cons p rest => exact ⟨p, rest, rfl⟩
      rw [hc] at hceq
      subst hceq
      rw [hc] at hhseq
      subst hhseq
      constructor
      · rw [high_sym_of]
        rfl
      · rw [high_sym_of]
        rw [show (p.idx :: (high_sym_interior (p :: rest) tol jump
            ++ [((p :: rest).getLastD p).idx]))
          = (p.idx :: high_sym_interior (p :: rest) tol jump)
            ++ [((p :: rest).getLastD p).idx] from rfl]
        rw [List.getLast?_concat]
        rw [getLastD_eq_of_ne_nil (p :: rest) (by simp) p cpDflt]

/-- Claim C10: when the cleaned k-point list has exactly one point, the
high-symmetry index list contains that single point's index twice. -/
theorem clean_kpoints_single_duplicate (t : List KRow) (tol jump : ℝ) (wtol : ℚ)
    (c : List CPt) (hs : List ℤ)
    (h : clean_kpoints t tol jump wtol = some (c, hs)) (hc1 : c.length = 1) :
    hs = [(c.headD cpDflt).idx, (c.headD cpDflt).idx] := by
  by_cases ht : t = []
  · rw [clean_kpoints, if_pos ht] at h
    cases h
  · rw [clean_kpoints, if_neg ht] at h
    by_cases hcnil : cleaned_of t wtol = []
    · rw [if_pos hcnil] at h
      cases h
    · rw [if_neg hcnil] at h
      simp only [Option.some.injEq, Prod.mk.injEq] at h
      obtain ⟨hceq, hhseq⟩ := h
      obtain ⟨p, hc⟩ : ∃ p, cleaned_of t wtol = [p] := by
        cases hx : cleaned_of t wtol with
        | nil => exact absurd hx hcnil
        | cons p rest =>
          rw [hx] at hceq
          subst hceq
          simp only [List.length_cons] at hc1
          have : rest = [] := List.length_eq_zero.mp (by omega)
          subst this
          exact ⟨p, rfl⟩
      rw [hc] at hceq
      subst hceq
      rw [hc] at hhseq
      subst hhseq
      rw [high_sym_of]
      simp [high_sym_interior]

/-- A one-row k-point table used to instantiate claims C5 and C10. -/
def kr0 : KRow := ⟨0, 1/2, 1/3, 0, 1⟩

theorem clean_kpoints_eval_single :
    clean_kpoints [kr0] 5 (1/5) (1/1000)
      = some ([⟨0, 1/2, 1/3, 0⟩], [0, 0]) := by
  have hwf : weight_filter [kr0] (1/1000) = [kr0] := by
    rw [weight_filter, if_pos]
    intro r hr
    simp only [List.mem_singleton] at hr
    subst hr
    norm_num [ratAbs, kr0]
  have hpy : pyInt (0 : ℚ) = 0 := by
    norm_num [pyInt]
  have hcl : cleaned_of [kr0] (1/1000) = [⟨0, 1/2, 1/3, 0⟩] := by
    unfold cleaned_of
    rw [hwf]
    simp only [dedupGo, kr0]
    rw [hpy]
  rw [clean_kpoints, if_neg (by simp), hcl, if_neg (by simp)]
  rw [high_sym_of]
  simp [high_sym_interior]

/-- Concrete instantiation of claim C5 at a one-row table. -/
theorem clean_kpoints_first_last_witness :
    clean_kpoints [kr0] 5 (1/5) (1/1000)
        = some ([⟨0, 1/2, 1/3, 0⟩], [0, 0]) ∧
    (([(0:ℤ), 0] : List ℤ).head?
        = some ((([(⟨0, 1/2, 1/3, 0⟩ : CPt)] : List CPt).headD cpDflt).idx) ∧
      ([(0:ℤ), 0] : List ℤ).getLast?
        = some ((([(⟨0, 1/2, 1/3, 0⟩ : CPt)] : List CPt).getLastD cpDflt).idx)) :=
  ⟨clean_kpoints_eval_single,
    clean_kpoints_first_last [kr0] 5 (1/5) (1/1000) _ _ clean_kpoints_eval_single⟩

/-- Concrete instantiation of claim C10 at a one-row table. -/
theorem clean_kpoints_single_duplicate_witness :
    clean_kpoints [kr0] 5 (1/5) (1/1000)
        = some ([⟨0, 1/2, 1/3, 0⟩], [0, 0]) ∧
    ([(⟨0, 1/2, 1/3, 0⟩ : CPt)] : List CPt).length = 1 ∧
    ([(0:ℤ), 0] : List ℤ)
      = [(([(⟨0, 1/2, 1/3, 0⟩ : CPt)] : List CPt).headD cpDflt).idx,
        (([(⟨0, 1/2, 1/3, 0⟩ : CPt)] : List CPt).headD cpDflt).idx] :=
  ⟨clean_kpoints_eval_single, by decide,
    clean_kpoints_single_duplicate [kr0] 5 (1/5) (1/1000) _ _
      clean_kpoints_eval_single (by decide)⟩

end OrbVis

namespace OrbVis

/-- Python `str.strip()`: drop leading and trailing whitespace. -/
def trimL (cs : List Char) : List Char :=
  ((cs.dropWhile Char.isWhitespace).reverse.dropWhile Char.isWhitespace).reverse

/-- Worker for `str.split()` with an accumulator of the current word,
in reverse. -/
def wordsAux : List Char → List Char → List (List Char)
  | [], acc => if acc.isEmpty then [] else [acc.reverse]
  | ch :: cs, acc =>
    if ch.isWhitespace then
      if acc.isEmpty then wordsAux cs [] else acc.reverse :: wordsAux cs []
    else wordsAux cs (ch :: acc)

/-- Python `str.split()` (no argument): split on whitespace runs, discarding
empty tokens. -/
def pySplitWS (cs : List Char) : List (List Char) := wordsAux cs []

/-- The numeric value of a digit run. -/
def digitsToNat (ds : List Char) : ℕ :=
  ds.foldl (fun a c => 10 * a + (c.toNat - 48)) 0

/-- The value of a digit run read as a fractional part. -/
def fracVal (ds : List Char) : ℚ := (digitsToNat ds : ℚ) / (10 : ℚ) ^ ds.length

/-- Python `float(token)` on the numeric literals that occur in PROCAR files:
optional sign, decimal digits with an optional point (at least one digit
somewhere), and an optional exponent.  `none` models `ValueError`. -/
def pyFloat? (cs0 : List Char) : Option ℚ :=
  let cs := trimL cs0
  let sgncs : ℚ × List Char :=
    match cs with
    | '+' :: r => (1, r)
    | '-' :: r => (-1, r)
    | _ => (1, cs)
  let d1 := sgncs.2.takeWhile Char.isDigit
  let r1 := sgncs.2.dropWhile Char.isDigit
  let hasPoint : Bool := match r1 with | '.' :: _ => true | _ => false
  let d2 := if hasPoint then r1.tail.takeWhile Char.isDigit else []
  let r2 := if hasPoint then r1.tail.dropWhile Char.isDigit else r1
  if d1.isEmpty && d2.isEmpty then none
  else
    let mant : ℚ := sgncs.1 * ((digitsToNat d1 : ℚ) + fracVal d2)
    match r2 with
    | [] => some mant
    | e :: rexp =>
      if e = 'e' ∨ e = 'E' then
        let esgnr : ℤ × List Char :=
          match rexp with
          | '+' :: rr => (1, rr)
          | '-' :: rr => (-1, rr)
          | _ => (1, rexp)
        let de := esgnr.2.takeWhile Char.isDigit
        let re := esgnr.2.dropWhile Char.isDigit
        if de.isEmpty || !re.isEmpty then none
        else some (mant * (10 : ℚ) ^ (esgnr.1 * (digitsToNat de : ℤ)))
      else none

/-- Python `int(token)`: optional sign followed by digits only.  `none` models
`ValueError`. -/
def pyInt? (cs0 : List Char) : Option ℤ :=
  let cs := trimL cs0
  let sgncs : ℤ × List Char :=
    match cs with
    | '+' :: r => (1, r)
    | '-' :: r => (-1, r)
    | _ => (1, cs)
  let ds := sgncs.2.takeWhile Char.isDigit
  let rest := sgncs.2.dropWhile Char.isDigit
  if ds.isEmpty || !rest.isEmpty then none
  else some (sgncs.1 * (digitsToNat ds : ℤ))

/-- First alternative of the float regex of the k-point line,
`[-+]?\d*\.\d+`: optional sign, digits, a point, then at least one digit. -/
def matchAlt1 (cs : List Char) : Option (ℚ × List Char) :=
  let sgncs : ℚ × List Char :=
    match cs with
    | '+' :: r => (1, r)
    | '-' :: r => (-1, r)
    | _ => (1, cs)
  let d1 := sgncs.2.takeWhile Char.isDigit
  let r1 := sgncs.2.dropWhile Char.isDigit
  match r1 with
  | '.' :: rf =>
    let d2 := rf.takeWhile Char.isDigit
    let r2 := rf.dropWhile Char.isDigit
    if d2.isEmpty then none
    else some (sgncs.1 * ((digitsToNat d1 : ℚ) + fracVal d2), r2)
  | _ => none

/-- Second alternative of the float regex, `\d+`. -/
def matchAlt2 (cs : List Char) : Option (ℚ × List Char) :=
  let d := cs.takeWhile Char.isDigit
  let r := cs.dropWhile Char.isDigit
  if d.isEmpty then none else some ((digitsToNat d : ℚ), r)

/-- Fuelled scan for `re.findall` with the pattern above: at each position try
alternative 1, then alternative 2, else advance one character.  Every step
consumes at least one character, so `cs.length` fuel always suffices. -/
def findFloatsGo : ℕ → List Char → List ℚ
  | 0, _ => []
  | _ + 1, [] => []
  | fuel + 1, c :: cs =>
    match matchAlt1 (c :: cs) with
    | some (q, rest) => q :: findFloatsGo fuel rest
    | none =>
      match matchAlt2 (c :: cs) with
      | some (q, rest) => q :: findFloatsGo fuel rest
      | none => findFloatsGo fuel cs

/-- `re.findall(r"[-+]?\d*\.\d+|\d+", line)` mapped through `float`. -/
def findFloats (cs : List Char) : List ℚ := findFloatsGo cs.length cs

/-- Keyword `k-point` (block start prefix). -/
def kwKpoint : List Char := ['k', '-', 'p', 'o', 'i', 'n', 't']

/-- Keyword `band` (block start prefix). -/
def kwBand : List Char := ['b', 'a', 'n', 'd']

/-- Keyword `ion` (header line prefix of an ion block). -/
def kwIon : List Char := ['i', 'o', 'n']

/-- Keyword `tot` (total row prefix). -/
def kwTot : List Char := ['t', 'o', 't']

/-- Token `energy` on a band header line. -/
def kwEnergy : List Char := ['e', 'n', 'e', 'r', 'g', 'y']

/-- Token `k-points:` on the PROCAR header line. -/
def kwKpointsColon : List Char := ['k', '-', 'p', 'o', 'i', 'n', 't', 's', ':']

/-- Token `bands:` on the PROCAR header line. -/
def kwBandsColon : List Char := ['b', 'a', 'n', 'd', 's', ':']

/-- Python `str.startswith`. -/
def startsWith (pre cs : List Char) : Bool := pre.isPrefixOf cs

/-- numpy index wrap for one axis of size `n`: a negative index counts from
the end. -/
def npWrap (n : ℕ) (i : ℤ) : ℤ := if i < 0 then i + n else i

/-- numpy index resolution for one axis of size `n`: a negative index wraps
once; anything still out of `[0, n)` is an `IndexError` (`none`). -/
def npIdx (n : ℕ) (i : ℤ) : Option ℕ :=
  if 0 ≤ npWrap n i ∧ npWrap n i < n then some (npWrap n i).toNat else none

/-- numpy 1-D element assignment `l[i] = v`. -/
def npSet1 {α : Type} (l : List α) (i : ℤ) (v : α) : Option (List α) :=
  (npIdx l.length i).map (fun j => l.set j v)

/-- numpy 2-D element assignment `m[i, j] = v`. -/
def npSet2 {α : Type} (m : List (List α)) (i j : ℤ) (v : α) : Option (List (List α)) :=
  match npIdx m.length i with
  | none => none
  | some ii =>
    match npSet1 (m.getD ii []) j v with
    | none => none
    | some row => some (m.set ii row)

/-- numpy 3-D element assignment `m[i, j, k] = v`. -/
def npSet3 {α : Type} (ms : List (List (List α))) (i j k : ℤ) (v : α) :
    Option (List (List (List α))) :=
  match npIdx ms.length i with
  | none => none
  | some ii =>
    match npSet2 (ms.getD ii []) j k v with
    | none => none
    | some sl => some (ms.set ii sl)

/-- numpy 2-D element read `m[i, j]`. -/
def npGet2 {α : Type} (d : α) (m : List (List α)) (i j : ℤ) : Option α :=
  match npIdx m.length i with
  | none => none
  | some ii =>
    match npIdx (m.getD ii []).length j with
    | none => none
    | some jj => some ((m.getD ii []).getD jj d)

/-- numpy 3-D element read `m[i, j, k]`. -/
def npGet3 {α : Type} (d : α) (ms : List (List (List α))) (i j k : ℤ) : Option α :=
  match npIdx ms.length i with
  | none => none
  | some ii => npGet2 d (ms.getD ii []) j k

/-- The band-energy / orbital-projection array: rank 2 `(bands, kpts)` for
`ispin = 1`, rank 3 `(2, bands, kpts)` for `ispin = 2`. -/
inductive BArr where
  | two : List (List ℚ) → BArr
  | three : List (List (List ℚ)) → BArr
deriving DecidableEq

/-- `np.zeros((b, k))`. -/
def zeros2 (b k : ℕ) : List (List ℚ) := List.replicate b (List.replicate k 0)

/-- `np.zeros((s, b, k))`. -/
def zeros3 (s b k : ℕ) : List (List (List ℚ)) := List.replicate s (zeros2 b k)

/-- The tensor store of both extractors: `arr[band, kpt] = v` for `ispin = 1`
and `arr[spin, band, kpt] = v` for `ispin = 2`. -/
def storeTarget (ispin : ℕ) (arr : BArr) (sp b k : ℤ) (v : ℚ) : Option BArr :=
  match ispin, arr with
  | 1, .two m => (npSet2 m b k v).map BArr.two
  | 2, .three m => (npSet3 m sp b k v).map BArr.three
  | _, _ => none

/-- Read back the tensor cell addressed exactly as `storeTarget` writes it. -/
def entryAt (ispin : ℕ) (arr : BArr) (sp b k : ℤ) : Option ℚ :=
  match ispin, arr with
  | 1, .two m => npGet2 0 m b k
  | 2, .three m => npGet3 0 m sp b k
  | _, _ => none

/-- The eigenvalue token of a band header line: the token immediately after
the literal `energy`, parsed as a float; `none` when the keyword, the token or
the parse fails (all three exceptions are caught by the code). -/
def extract_energy (line : List Char) : Option ℚ :=
  let parts := pySplitWS line
  match parts.findIdx? (fun w => w == kwEnergy) with
  | none => none
  | some i =>
    match parts[i + 1]? with
    | none => none
    | some tok => pyFloat? tok

/-- The loop state of `read_band_energies_and_klist_from_PROCAR`. -/
structure BandState where
  kpt : ℤ
  band : ℤ
  spin : ℤ
  energies : BArr
  klist : List (List ℚ)
  done : Bool

/-- The spin-channel rollover check run at the bottom of the line loop of the
band-energy extractor: after the last band of the last k-point (for
`ispin = 2`), advance the spin channel — `done` models the `break` after the
second channel. -/
def spinRollover (ispin : ℕ) (num_kpt num_band : ℕ) (s : BandState) : BandState :=
  if ispin = 2 ∧ s.kpt = (num_kpt : ℤ) - 1 ∧ s.band = (num_band : ℤ) - 1 then
    if 2 ≤ s.spin + 1 then { s with spin := s.spin + 1, done := true }
    else { s with spin := s.spin + 1, kpt := -1, band := -1 }
  else s

/-- One iteration of the line loop of
`read_band_energies_and_klist_from_PROCAR`. -/
def bandStep (ispin : ℕ) (num_kpt num_band : ℕ) (s : BandState)
    (rawLine : List Char) : Except String BandState :=
  if s.done then .ok s else
  let line := trimL rawLine
  if line.isEmpty then .ok s
  else if startsWith kwKpoint line then
    let k' := s.kpt + 1
    if s.spin = 0 then
      let fs := findFloats line
      if 4 ≤ fs.length then
        match npSet1 s.klist k'
            [(k' : ℚ), fs.getD 1 0, fs.getD 2 0, fs.getD 3 0, fs.getLastD 0] with
        | some kl => .ok { s with kpt := k', band := -1, klist := kl }
        | none => .error "IndexError"
      else .error "Invalid format"
    else .ok { s with kpt := k', band := -1 }
  else if startsWith kwBand line then
    let b' := s.band + 1
    let energy := (extract_energy line).getD 0
    match storeTarget ispin s.energies s.spin b' s.kpt energy with
    | some e => .ok (spinRollover ispin num_kpt num_band
        { s with band := b', energies := e })
    | none => .error "IndexError"
  else .ok (spinRollover ispin num_kpt num_band s)

/-- The two counts on the second PROCAR line: the tokens following
`k-points:` and `bands:`, parsed as ints; `none` models the uncaught
`ValueError` / `IndexError`. -/
def headerCounts (l1 : List Char) : Option (ℤ × ℤ) :=
  let header := pySplitWS l1
  match header.findIdx? (fun w => w == kwKpointsColon) with
  | none => none
  | some ik =>
    match header[ik + 1]? with
    | none => none
    | some tk =>
      match pyInt? tk with
      | none => none
      | some nk =>
        match header.findIdx? (fun w => w == kwBandsColon) with
        | none => none
        | some ib =>
          match header[ib + 1]? with
          | none => none
          | some tb =>
            match pyInt? tb with
            | none => none
            | some nb => some (nk, nb)

/-- `read_band_energies_and_klist_from_PROCAR(file_path, ispin)` from
`orbvis/band/parser.py`, over the file's lines.  The first line is skipped,
the second provides the k-point and band counts, and the remaining lines are
folded through `bandStep`. -/
def read_band_energies_and_klist_from_PROCAR (lines : List (List Char))
    (ispin : ℕ) : Except String (BArr × List (List ℚ)) :=
  match lines with
  | _ :: l1 :: rest =>
    match headerCounts l1 with
    | none => .error "ValueError"
    | some (nk, nb) =>
      if ispin = 1 ∨ ispin = 2 then
        if nk < 0 ∨ nb < 0 then .error "ValueError: negative dimensions"
        else
          let K := nk.toNat
          let B := nb.toNat
          let init : BandState :=
            { kpt := -1, band := -1, spin := 0,
              energies := if ispin = 1 then .two (zeros2 B K) else .three (zeros3 2 B K),
              klist := List.replicate K (List.replicate 5 0), done := false }
          match rest.foldlM (bandStep ispin K B) init with
          | .ok s => .ok (s.energies, s.klist)
          | .error e => .error e
      else .error "ISPIN must be 1 or 2"
  | _ => .error "StopIteration"

end OrbVis

namespace OrbVis

/-- The numeric token of a requested ion data row: column
`orbital_index + 1` (column 0 is the ion serial number), parsed as a float;
`none` when the column is missing or unparsable (both exceptions are
caught). -/
def rowValue (line : List Char) (orbital_index : ℕ) : Option ℚ :=
  match (pySplitWS line)[orbital_index + 1]? with
  | none => none
  | some tok => pyFloat? tok

/-- The loop state of `orbvis_orbital_specific_band_data_from_PROCAR`. -/
structure OrbState where
  kpt : ℤ
  band : ℤ
  spin : ℤ
  counter : ℕ
  data : BArr
  done : Bool

/-- The spin-channel rollover check at the bottom of the line loop of the
orbital extractor; it additionally resets the ion-row counter. -/
def orbRollover (ispin : ℕ) (num_kpt num_band : ℕ) (s : OrbState) : OrbState :=
  if ispin = 2 ∧ s.kpt = (num_kpt : ℤ) - 1 ∧ s.band = (num_band : ℤ) - 1 then
    if 2 ≤ s.spin + 1 then { s with spin := s.spin + 1, done := true }
    else { s with spin := s.spin + 1, kpt := -1, band := -1, counter := 0 }
  else s

/-- One iteration of the line loop of
`orbvis_orbital_specific_band_data_from_PROCAR`. -/
def orbStep (ispin : ℕ) (num_kpt num_band : ℕ) (ion_index orbital_index : ℕ)
    (s : OrbState) (rawLine : List Char) : Except String OrbState :=
  if s.done then .ok s else
  let line := trimL rawLine
  if line.isEmpty then .ok s
  else if startsWith kwKpoint line then
    .ok { s with kpt := s.kpt + 1, band := -1, counter := 0 }
  else if startsWith kwBand line then
    .ok { s with band := s.band + 1, counter := 0 }
  else if startsWith kwIon line then .ok s
  else if startsWith kwTot line then .ok s
  else
    if 0 ≤ s.kpt ∧ 0 ≤ s.band then
      let c' := s.counter + 1
      if c' = ion_index + 1 then
        let v := (rowValue line orbital_index).getD 0
        match storeTarget ispin s.data s.spin s.band s.kpt v with
        | some d => .ok (orbRollover ispin num_kpt num_band
            { s with counter := c', data := d })
        | none => .error "IndexError"
      else .ok (orbRollover ispin num_kpt num_band { s with counter := c' })
    else .ok (orbRollover ispin num_kpt num_band s)

/-- `orbvis_orbital_specific_band_data_from_PROCAR(file_path, ion_index,
orbital_index, ispin)` from `orbvis/band/parser.py`, over the file's lines. -/
def orbvis_orbital_specific_band_data_from_PROCAR (lines : List (List Char))
    (ion_index orbital_index ispin : ℕ) : Except String BArr :=
  match lines with
  | _ :: l1 :: rest =>
    match headerCounts l1 with
    | none => .error "ValueError"
    | some (nk, nb) =>
      if ispin = 1 ∨ ispin = 2 then
        if nk < 0 ∨ nb < 0 then .error "ValueError: negative dimensions"
        else
          let K := nk.toNat
          let B := nb.toNat
          let init : OrbState :=
            { kpt := -1, band := -1, spin := 0, counter := 0,
              data := if ispin = 1 then .two (zeros2 B K) else .three (zeros3 2 B K),
              done := false }
          match rest.foldlM (orbStep ispin K B ion_index orbital_index) init with
          | .ok s => .ok s.data
          | .error e => .error e
      else .error "Invalid ispin value (must be either 1 or 2)"
  | _ => .error "StopIteration"

/-- The exact-shape predicate for a rank-2 array. -/
def dims2 (m : List (List ℚ)) (b k : ℕ) : Prop :=
  m.length = b ∧ ∀ r ∈ m, r.length = k

/-- The exact-shape predicate for a rank-3 array. -/
def dims3 (ms : List (List (List ℚ))) (s b k : ℕ) : Prop :=
  ms.length = s ∧ ∀ sl ∈ ms, dims2 sl b k

/-- The shape demanded of the band tensor by the header counts and `ispin`. -/
def shapeOK (ispin : ℕ) (b k : ℕ) (arr : BArr) : Prop :=
  (ispin = 1 → ∃ m, arr = .two m ∧ dims2 m b k) ∧
  (ispin = 2 → ∃ ms, arr = .three ms ∧ dims3 ms 2 b k)

end OrbVis

namespace OrbVis

theorem dims2_zeros (b k : ℕ) : dims2 (zeros2 b k) b k := by
  unfold dims2 zeros2
  constructor
  · simp
  · intro r hr
    rw [List.eq_of_mem_replicate hr]
    simp

theorem dims3_zeros (s b k : ℕ) : dims3 (zeros3 s b k) s b k := by
  unfold dims3 zeros3
  constructor
  · simp
  · intro sl hsl
    rw [List.eq_of_mem_replicate hsl]
    exact dims2_zeros b k

theorem npSet1_length {α : Type} (l : List α) (i : ℤ) (v : α) (l' : List α)
    (h : npSet1 l i v = some l') : l'.length = l.length := by
  unfold npSet1 at h
  cases hidx : npIdx l.length i with
  | none => rw [hidx] at h; cases h
  | some j =>
    rw [hidx] at h
    simp only [Option.map_some', Option.some.injEq] at h
    subst h
    simp

theorem mem_set_imp {α : Type} (l : List α) (j : ℕ) (v : α) (x : α)
    (hx : x ∈ l.set j v) : x ∈ l ∨ x = v := by
  have := List.mem_or_eq_of_mem_set hx
  exact this

theorem npIdx_lt (n : ℕ) (i : ℤ) (j : ℕ) (h : npIdx n i = some j) : j < n := by
  unfold npIdx at h
  split at h
  · rename_i hcond
    simp only [Option.some.injEq] at h
    subst h
    omega
  · cases h

theorem npSet2_dims (m : List (List ℚ)) (i j : ℤ) (v : ℚ) (m' : List (List ℚ))
    (b k : ℕ) (hd : dims2 m b k) (h : npSet2 m i j v = some m') : dims2 m' b k := by
  unfold npSet2 at h
  split at h
  · cases h
  · rename_i ii hii
    split at h
    · cases h
    · rename_i row hrow
      simp only [Option.some.injEq] at h
      subst h
      obtain ⟨hlen, hrows⟩ := hd
      have hii_lt : ii < m.length := npIdx_lt _ _ _ hii
      constructor
      · simp [hlen]
      · intro r hr
        rcases mem_set_imp m ii row r hr with hmem | rfl
        · exact hrows r hmem
        · have hgd : m.getD ii [] ∈ m := by
            rw [List.getD_eq_getElem _ _ hii_lt]
            exact List.getElem_mem hii_lt
          have := npSet1_length _ _ _ _ hrow
          rw [this]
          exact hrows _ hgd

theorem npSet3_dims (ms : List (List (List ℚ))) (i j k : ℤ) (v : ℚ)
    (ms' : List (List (List ℚ))) (s b kk : ℕ) (hd : dims3 ms s b kk)
    (h : npSet3 ms i j k v = some ms') : dims3 ms' s b kk := by
  unfold npSet3 at h
  split at h
  · cases h
  · rename_i ii hii
    split at h
    · cases h
    · rename_i sl hsl
      simp only [Option.some.injEq] at h
      subst h
      obtain ⟨hlen, hsls⟩ := hd
      have hii_lt : ii < ms.length := npIdx_lt _ _ _ hii
      constructor
      · simp [hlen]
      · intro r hr
        rcases mem_set_imp ms ii sl r hr with hmem | rfl
        · exact hsls r hmem
        · have hgd : ms.getD ii [] ∈ ms := by
            rw [List.getD_eq_getElem _ _ hii_lt]
            exact List.getElem_mem hii_lt
          exact npSet2_dims _ _ _ _ _ _ _ (hsls _ hgd) hsl

theorem storeTarget_shapeOK (ispin : ℕ) (arr arr' : BArr) (sp b k : ℤ) (v : ℚ)
    (B K : ℕ) (hs : shapeOK ispin B K arr)
    (h : storeTarget ispin arr sp b k v = some arr') : shapeOK ispin B K arr' := by
  unfold storeTarget at h
  split at h
  · rename_i m
    cases hset : npSet2 m b k v with
    | none => rw [hset] at h; cases h
    | some m' =>
      rw [hset] at h
      simp only [Option.map_some', Option.some.injEq] at h
      subst h
      obtain ⟨m₀, hm₀, hd⟩ := hs.1 rfl
      have hmm : m = m₀ := by injection hm₀
      subst hmm
      refine ⟨fun _ => ⟨m', rfl, npSet2_dims m b k v m' B K hd hset⟩,
        fun h2 => absurd h2 (by norm_num)⟩
  · rename_i ms
    cases hset : npSet3 ms sp b k v with
    | none => rw [hset] at h; cases h
    | some ms' =>
      rw [hset] at h
      simp only [Option.map_some', Option.some.injEq] at h
      subst h
      obtain ⟨ms₀, hm₀, hd⟩ := hs.2 rfl
      have hmm : ms = ms₀ := by injection hm₀
      subst hmm
      refine ⟨fun h1 => absurd h1 (by norm_num),
        fun _ => ⟨ms', rfl, npSet3_dims ms sp b k v ms' 2 B K hd hset⟩⟩
  · cases h

end OrbVis

namespace OrbVis

theorem spinRollover_energies (ispin K B : ℕ) (s : BandState) :
    (spinRollover ispin K B s).energies = s.energies := by
  unfold spinRollover
  split
  · split <;> rfl
  · rfl

theorem bandStep_shapeOK (ispin K B : ℕ) (s : BandState) (line : List Char)
    (s' : BandState) (hs : shapeOK ispin B K s.energies)
    (h : bandStep ispin K B s line = .ok s') :
    shapeOK ispin B K s'.energies := by
  unfold bandStep at h
  dsimp only at h
  split at h
  · cases h; exact hs
  · split at h
    · cases h; exact hs
    · split at h
      · split at h
        · split at h
          · split at h
            · cases h; exact hs
            · cases h
          · cases h
        · cases h; exact hs
      · split at h
        · split at h
          · rename_i e hst
            cases h
            rw [spinRollover_energies]
            exact storeTarget_shapeOK ispin s.energies e _ _ _ _ B K hs hst
          · cases h
        · cases h
          rw [spinRollover_energies]
          exact hs

theorem foldlM_except_invariant {σ β : Type} (P : σ → Prop)
    (f : σ → β → Except String σ)
    (hf : ∀ s x s', P s → f s x = .ok s' → P s') :
    ∀ (ls : List β) (s₀ s : σ), List.foldlM f s₀ ls = .ok s → P s₀ → P s := by
  intro ls
  induction ls with
  | nil =>
    intro s₀ s h hp
    simp only [List.foldlM_nil, pure] at h
    cases h
    exact hp
  | cons x xs ih =>
    intro s₀ s h hp
    rw [List.foldlM_cons] at h
    cases hx : f s₀ x with
    | error e =>
      rw [hx] at h
      simp only [bind, Except.bind] at h
      cases h
    | ok s₁ =>
      rw [hx] at h
      simp only [bind, Except.bind] at h
      exact ih s₁ s h (hf s₀ x s₁ hp hx)

/-- Claim C1: whenever `read_band_energies_and_klist_from_PROCAR` returns, the
second file line declared a k-point count `K ≥ 0` and a band count `B ≥ 0`,
and the returned band-energy array has shape exactly `(B, K)` for `ispin = 1`
and `(2, B, K)` for `ispin = 2`, whatever the rest of the file contains. -/
theorem read_band_energies_shape (lines : List (List Char)) (ispin : ℕ)
    (arr : BArr) (kl : List (List ℚ))
    (h : read_band_energies_and_klist_from_PROCAR lines ispin = .ok (arr, kl)) :
    ∃ K B : ℤ, headerCounts (lines.getD 1 []) = some (K, B) ∧ 0 ≤ K ∧ 0 ≤ B ∧
      ((ispin = 1 ∧ ∃ m, arr = .two m ∧ dims2 m B.toNat K.toNat) ∨
       (ispin = 2 ∧ ∃ ms, arr = .three ms ∧ dims3 ms 2 B.toNat K.toNat)) := by
  unfold read_band_energies_and_klist_from_PROCAR at h
  split at h
  · rename_i l0 l1 rest
    split at h
    · cases h
    · rename_i nknb nk nb hhc
      split at h
      · rename_i hsp
        split at h
        · cases h
        · rename_i hneg
          split at h
          · rename_i hsp1
            dsimp only at h
            split at h
            · rename_i sfin hfold
              cases h
              subst hsp1
              have hinv : shapeOK 1 nb.toNat nk.toNat sfin.energies :=
                foldlM_except_invariant
                  (fun st => shapeOK 1 nb.toNat nk.toNat st.energies)
                  (bandStep 1 nk.toNat nb.toNat)
                  (fun st x st' hp hstep =>
                    bandStep_shapeOK 1 nk.toNat nb.toNat st x st' hp hstep)
                  rest _ sfin hfold
                  ⟨fun _ => ⟨zeros2 nb.toNat nk.toNat, rfl, dims2_zeros _ _⟩,
                    fun h2 => absurd h2 (by norm_num)⟩
              exact ⟨nk, nb, by simpa using hhc, by omega, by omega,
                Or.inl ⟨rfl, hinv.1 rfl⟩⟩
            · cases h
          · rename_i hsp1
            have hsp2 : ispin = 2 := by
              rcases hsp with rfl | rfl
              · exact absurd rfl hsp1
              · rfl
            subst hsp2
            dsimp only at h
            split at h
            · rename_i sfin hfold
              cases h
              have hinv : shapeOK 2 nb.toNat nk.toNat sfin.energies :=
                foldlM_except_invariant
                  (fun st => shapeOK 2 nb.toNat nk.toNat st.energies)
                  (bandStep 2 nk.toNat nb.toNat)
                  (fun st x st' hp hstep =>
                    bandStep_shapeOK 2 nk.toNat nb.toNat st x st' hp hstep)
                  rest _ sfin hfold
                  ⟨fun h1 => absurd h1 (by norm_num),
                    fun _ => ⟨zeros3 2 nb.toNat nk.toNat, rfl, dims3_zeros _ _ _⟩⟩
              exact ⟨nk, nb, by simpa using hhc, by omega, by omega,
                Or.inr ⟨rfl, hinv.2 rfl⟩⟩
            · cases h
      · cases h
  · cases h

end OrbVis

namespace OrbVis

/-- First line of a tiny PROCAR file (skipped by the extractor). -/
def procarL0 : List Char := ['x']

/-- Header line of a tiny PROCAR file declaring 0 k-points and 0 bands. -/
def procarL1 : List Char :=
  ['k', '-', 'p', 'o', 'i', 'n', 't', 's', ':', ' ', '0', ' ',
   'b', 'a', 'n', 'd', 's', ':', ' ', '0']

/-- A content line that matches no block-start keyword. -/
def procarJunk : List Char := ['j', 'u', 'n', 'k']

/-- Concrete instantiation of claim C1: a file declaring `(0, 0)` counts with
an arbitrary trailing line parses to an empty `(0, 0)`-shaped array. -/
theorem read_band_energies_shape_witness :
    read_band_energies_and_klist_from_PROCAR [procarL0, procarL1, procarJunk] 1
        = .ok (.two [], []) ∧
    (∃ K B : ℤ,
      headerCounts (([procarL0, procarL1, procarJunk] : List (List Char)).getD 1 [])
          = some (K, B) ∧ 0 ≤ K ∧ 0 ≤ B ∧
      (((1:ℕ) = 1 ∧ ∃ m, (BArr.two [] : BArr) = .two m ∧ dims2 m B.toNat K.toNat) ∨
       ((1:ℕ) = 2 ∧ ∃ ms, (BArr.two [] : BArr) = .three ms ∧ dims3 ms 2 B.toNat K.toNat))) :=
  ⟨rfl, read_band_energies_shape [procarL0, procarL1, procarJunk] 1
    (.two []) [] rfl⟩

end OrbVis

namespace OrbVis

theorem npSet1_npGet (l : List ℚ) (i : ℤ) (v : ℚ) (l' : List ℚ)
    (h : npSet1 l i v = some l') :
    ∃ j, npIdx l.length i = some j ∧ l'.getD j 0 = v := by
  unfold npSet1 at h
  cases hidx : npIdx l.length i with
  | none => rw [hidx] at h; cases h
  | some j =>
    rw [hidx] at h
    simp only [Option.map_some', Option.some.injEq] at h
    subst h
    have hj : j < l.length := npIdx_lt _ _ _ hidx
    refine ⟨j, rfl, ?_⟩
    rw [List.getD_eq_getElem _ _ (by simp [hj])]
    exact List.getElem_set_self (by simp [hj])

theorem npSet2_npGet2 (m : List (List ℚ)) (i j : ℤ) (v : ℚ) (m' : List (List ℚ))
    (h : npSet2 m i j v = some m') : npGet2 0 m' i j = some v := by
  unfold npSet2 at h
  split at h
  · cases h
  · rename_i ii hii
    split at h
    · cases h
    · rename_i row hrow
      simp only [Option.some.injEq] at h
      subst h
      have hii_lt : ii < m.length := npIdx_lt _ _ _ hii
      obtain ⟨jj, hjj, hval⟩ := npSet1_npGet _ _ _ _ hrow
      unfold npGet2
      have hlen : (m.set ii row).length = m.length := by simp
      rw [hlen, hii]
      dsimp only
      have hgd : (m.set ii row).getD ii [] = row := by
        rw [List.getD_eq_getElem _ _ (by simp [hii_lt])]
        exact List.getElem_set_self (by simp [hii_lt])
      rw [hgd]
      have hrlen : row.length = (m.getD ii []).length := by
        unfold npSet1 at hrow
        cases hx : npIdx (m.getD ii []).length j with
        | none => rw [hx] at hrow; cases hrow
        | some jj₂ =>
          rw [hx] at hrow
          simp only [Option.map_some', Option.some.injEq] at hrow
          subst hrow
          simp
      rw [hrlen, hjj]
      dsimp only
      rw [hval]

theorem npSet3_npGet3 (ms : List (List (List ℚ))) (i j k : ℤ) (v : ℚ)
    (ms' : List (List (List ℚ))) (h : npSet3 ms i j k v = some ms') :
    npGet3 0 ms' i j k = some v := by
  unfold npSet3 at h
  split at h
  · cases h
  · rename_i ii hii
    split at h
    · cases h
    · rename_i sl hsl
      simp only [Option.some.injEq] at h
      subst h
      have hii_lt : ii < ms.length := npIdx_lt _ _ _ hii
      unfold npGet3
      have hlen : (ms.set ii sl).length = ms.length := by simp
      rw [hlen, hii]
      dsimp only
      have hgd : (ms.set ii sl).getD ii [] = sl := by
        rw [List.getD_eq_getElem _ _ (by simp [hii_lt])]
        exact List.getElem_set_self (by simp [hii_lt])
      rw [hgd]
      exact npSet2_npGet2 _ _ _ _ _ hsl

theorem storeTarget_entryAt (ispin : ℕ) (arr : BArr) (arr' : BArr) (sp b k : ℤ)
    (v : ℚ) (h : storeTarget ispin arr sp b k v = some arr') :
    entryAt ispin arr' sp b k = some v := by
  unfold storeTarget at h
  split at h
  · rename_i m
    cases hset : npSet2 m b k v with
    | none => rw [hset] at h; cases h
    | some m' =>
      rw [hset] at h
      simp only [Option.map_some', Option.some.injEq] at h
      subst h
      unfold entryAt
      exact npSet2_npGet2 _ _ _ _ _ hset
  · rename_i ms
    cases hset : npSet3 ms sp b k v with
    | none => rw [hset] at h; cases h
    | some ms' =>
      rw [hset] at h
      simp only [Option.map_some', Option.some.injEq] at h
      subst h
      unfold entryAt
      exact npSet3_npGet3 _ _ _ _ _ _ hset
  · cases h

theorem orbRollover_data (ispin K B : ℕ) (s : OrbState) :
    (orbRollover ispin K B s).data = s.data := by
  unfold orbRollover
  split
  · split <;> rfl
  · rfl

theorem bandStep_zero_fill (ispin K B : ℕ) (s : BandState) (line : List Char)
    (e' : BArr)
    (hdone : s.done = false)
    (hempty : (trimL line).isEmpty = false)
    (hkp : startsWith kwKpoint (trimL line) = false)
    (hband : startsWith kwBand (trimL line) = true)
    (hen : extract_energy (trimL line) = none)
    (hst : storeTarget ispin s.energies s.spin (s.band + 1) s.kpt 0 = some e') :
    ∃ s', bandStep ispin K B s line = .ok s' ∧ s'.energies = e' ∧
      entryAt ispin e' s.spin (s.band + 1) s.kpt = some 0 := by
  refine ⟨spinRollover ispin K B { s with band := s.band + 1, energies := e' },
    ?_, ?_, ?_⟩
  · unfold bandStep
    rw [hdone]
    dsimp only
    rw [hempty, hkp, hband, hen]
    simp only [Bool.false_eq_true, if_false, if_true, Option.getD_none]
    rw [hst]
  · rw [spinRollover_energies]
  · exact storeTarget_entryAt ispin s.energies e' s.spin (s.band + 1) s.kpt 0 hst

theorem orbStep_zero_fill (ispin K B ion_index orbital_index : ℕ) (s : OrbState)
    (line : List Char) (d' : BArr)
    (hdone : s.done = false)
    (hempty : (trimL line).isEmpty = false)
    (hkp : startsWith kwKpoint (trimL line) = false)
    (hband : startsWith kwBand (trimL line) = false)
    (hion : startsWith kwIon (trimL line) = false)
    (htot : startsWith kwTot (trimL line) = false)
    (hkpt : 0 ≤ s.kpt) (hband0 : 0 ≤ s.band)
    (hcnt : s.counter + 1 = ion_index + 1)
    (hrv : rowValue (trimL line) orbital_index = none)
    (hst : storeTarget ispin s.data s.spin s.band s.kpt 0 = some d') :
    ∃ s', orbStep ispin K B ion_index orbital_index s line = .ok s' ∧ s'.data = d' ∧
      entryAt ispin d' s.spin s.band s.kpt = some 0 := by
  refine ⟨orbRollover ispin K B { s with counter := s.counter + 1, data := d' },
    ?_, ?_, ?_⟩
  · unfold orbStep
    rw [hdone]
    dsimp only
    rw [hempty, hkp, hband, hion, htot]
    simp only [Bool.false_eq_true, if_false]
    rw [if_pos ⟨hkpt, hband0⟩, if_pos hcnt, hrv]
    simp only [Option.getD_none]
    rw [hst]
  · rw [orbRollover_data]
  · exact storeTarget_entryAt ispin s.data d' s.spin s.band s.kpt 0 hst

/-- Claim C6: in both extractors, when the expected numeric token (the one
after `energy` on a band header, or the column `orbital_index + 1` of the
requested ion row) is missing or unparsable, the step stores `0.0` at the
current tensor position and returns normally instead of raising. -/
theorem malformed_token_zero_fill :
    (∀ (ispin K B : ℕ) (s : BandState) (line : List Char) (e' : BArr),
      s.done = false →
      (trimL line).isEmpty = false →
      startsWith kwKpoint (trimL line) = false →
      startsWith kwBand (trimL line) = true →
      extract_energy (trimL line) = none →
      storeTarget ispin s.energies s.spin (s.band + 1) s.kpt 0 = some e' →
      ∃ s', bandStep ispin K B s line = .ok s' ∧ s'.energies = e' ∧
        entryAt ispin e' s.spin (s.band + 1) s.kpt = some 0) ∧
    (∀ (ispin K B ion_index orbital_index : ℕ) (s : OrbState) (line : List Char)
        (d' : BArr),
      s.done = false →
      (trimL line).isEmpty = false →
      startsWith kwKpoint (trimL line) = false →
      startsWith kwBand (trimL line) = false →
      startsWith kwIon (trimL line) = false →
      startsWith kwTot (trimL line) = false →
      0 ≤ s.kpt → 0 ≤ s.band →
      s.counter + 1 = ion_index + 1 →
      rowValue (trimL line) orbital_index = none →
      storeTarget ispin s.data s.spin s.band s.kpt 0 = some d' →
      ∃ s', orbStep ispin K B ion_index orbital_index s line = .ok s' ∧
        s'.data = d' ∧ entryAt ispin d' s.spin s.band s.kpt = some 0) :=
  ⟨fun ispin K B s line e' h1 h2 h3 h4 h5 h6 =>
      bandStep_zero_fill ispin K B s line e' h1 h2 h3 h4 h5 h6,
    fun ispin K B ii oi s line d' h1 h2 h3 h4 h5 h6 h7 h8 h9 h10 h11 =>
      orbStep_zero_fill ispin K B ii oi s line d' h1 h2 h3 h4 h5 h6 h7 h8 h9 h10 h11⟩

end OrbVis

namespace OrbVis

/-- A band header line whose `energy` keyword has no following token. -/
def bandLine6 : List Char :=
  ['b', 'a', 'n', 'd', ' ', '1', ' ', 'e', 'n', 'e', 'r', 'g', 'y']

/-- An ion data row whose requested column is not a number. -/
def rowLine6 : List Char := ['1', ' ', 'a', 'b', 'c']

/-- A band-extractor state positioned at the first k-point, before any band. -/
def bandState6 : BandState :=
  { kpt := 0, band := -1, spin := 0, energies := .two [[5]],
    klist := [[0, 0, 0, 0, 0]], done := false }

/-- An orbital-extractor state inside the ion rows of the first band. -/
def orbState6 : OrbState :=
  { kpt := 0, band := 0, spin := 0, counter := 0, data := .two [[5]], done := false }

/-- Concrete instantiation of claim C6: a band header with a missing energy
token and an ion row with an unparsable column both store `0.0` and return
normally. -/
theorem malformed_token_zero_fill_witness :
    extract_energy (trimL bandLine6) = none ∧
    rowValue (trimL rowLine6) 0 = none ∧
    (∃ s', bandStep 1 1 1 bandState6 bandLine6 = .ok s' ∧
      s'.energies = BArr.two [[0]] ∧
      entryAt 1 (BArr.two [[0]]) bandState6.spin (bandState6.band + 1) bandState6.kpt
        = some 0) ∧
    (∃ s', orbStep 1 1 1 0 0 orbState6 rowLine6 = .ok s' ∧
      s'.data = BArr.two [[0]] ∧
      entryAt 1 (BArr.two [[0]]) orbState6.spin orbState6.band orbState6.kpt
        = some 0) :=
  ⟨rfl, rfl,
    malformed_token_zero_fill.1 1 1 1 bandState6 bandLine6 (BArr.two [[0]])
      rfl rfl rfl rfl rfl rfl,
    malformed_token_zero_fill.2 1 1 1 0 0 orbState6 rowLine6 (BArr.two [[0]])
      rfl rfl rfl rfl rfl rfl (by decide) (by decide) rfl rfl rfl⟩

end OrbVis
